import Mathlib

/-
  Verification of the Simanalysis conflict-detection engine and dependency-graph
  analyzer, shallowly embedded from the Python sources:

  - src/simanalysis/models.py                        (data model)
  - src/simanalysis/detectors/base.py                (severity classifier, conflict ids)
  - src/simanalysis/detectors/resource_conflicts.py  (resource conflict detector)
  - src/simanalysis/detectors/tuning_conflicts.py    (tuning conflict detector)
  - src/simanalysis/analyzers/dependency_graph.py    (graph analyzer, via networkx)
  - src/simanalysis/analyzer.py                      (legacy analyzer: module collisions)

  Python machine integers from the DBPF parser are u32/u64 values; they are
  embedded as Nat, with explicit bounds hypotheses where a claim needs them.
  Python dicts keyed by insertion order are embedded as association lists with
  insertion-order semantics.  A Python set of keys per mod is embedded as a
  deduplicated list (one fixed enumeration of the set).
-/
set_option maxRecDepth 10000

namespace Simanalysis

/-! ## Data model (models.py) -/
/-- Severity enum from models.py. -/
inductive Severity where
  | CRITICAL
  | HIGH
  | MEDIUM
  | LOW
deriving DecidableEq, Repr

/-- ConflictType enum from models.py. -/
inductive ConflictType where
  | TUNING_OVERLAP
  | RESOURCE_DUPLICATE
  | SCRIPT_INJECTION
  | DEPENDENCY_MISSING
  | VERSION_CONFLICT
  | NAMESPACE_COLLISION
deriving DecidableEq, Repr

/-- `ConflictType.value`: the string payload of each enum member in models.py. -/
def ConflictType.value : ConflictType → String
  | .TUNING_OVERLAP => "TUNING_OVERLAP"
  | .RESOURCE_DUPLICATE => "RESOURCE_DUPLICATE"
  | .SCRIPT_INJECTION => "SCRIPT_INJECTION"
  | .DEPENDENCY_MISSING => "DEPENDENCY_MISSING"
  | .VERSION_CONFLICT => "VERSION_CONFLICT"
  | .NAMESPACE_COLLISION => "NAMESPACE_COLLISION"

/-- `DBPFResource` from models.py (the fields the detectors consume; `type`,
`group`, `instance` are the u32/u32/u64 key components, `inst` standing in for
the Python field name `instance`, which is reserved in Lean). -/
structure DBPFResource where
  type : Nat
  group : Nat
  inst : Nat
  offset : Nat := 0
  size : Nat := 0
  compressed_size : Nat := 0
deriving DecidableEq, Repr

/-- `DBPFResource.key` property: the (Type, Group, Instance) tuple. -/
def DBPFResource.key (r : DBPFResource) : Nat × Nat × Nat :=
  (r.type, r.group, r.inst)

/-- `TuningData` from models.py (fields consumed by the tuning detector;
`modified_attributes` is a string-keyed dict, embedded as a pair list). -/
structure TuningData where
  instance_id : Nat
  tuning_name : String
  tuning_class : String
  module : String
  modified_attributes : List (String × String) := []
deriving DecidableEq, Repr

/-- `Mod` from models.py (fields consumed by the detectors).  `hash` is a plain
Python string; the empty string is falsy, which `_detect_hash_collisions`
relies on. -/
structure Mod where
  name : String
  size : Nat := 0
  hash : String := ""
  resources : List DBPFResource := []
  tunings : List TuningData := []
deriving DecidableEq, Repr

/-- `Mod.tuning_ids` property (a Python set, embedded as a deduplicated list). -/
def Mod.tuning_ids (m : Mod) : List Nat :=
  (m.tunings.map (fun t => t.instance_id)).dedup

/-- `Mod.resource_keys` property (a Python set of (Type, Group, Instance)
tuples, embedded as a deduplicated list giving one enumeration of the set). -/
def Mod.resource_keys (m : Mod) : List (Nat × Nat × Nat) :=
  (m.resources.map DBPFResource.key).dedup

/-- The subset of the per-conflict `details` dict that the detectors write and
the code itself later inspects, as a typed shadow: a key absent from the dict
is `none`. -/
structure ConflictDetails where
  resource_key : Option String := none
  resource_type : Option Nat := none
  resource_type_name : Option String := none
  file_hash : Option String := none
  tuning_id : Option Nat := none
  tuning_class : Option String := none
  mod_count : Option Nat := none
  is_critical_resource : Option Bool := none
  is_core_tuning : Option Bool := none
  affected_mod_names : Option (List String) := none
deriving DecidableEq, Repr

/-- `ModConflict` from models.py. -/
structure ModConflict where
  id : String
  severity : Severity
  type : ConflictType
  affected_mods : List String
  description : String
  resolution : Option String := none
  details : ConflictDetails := {}
deriving DecidableEq, Repr

/-! ## Hexadecimal formatting

Python format specifiers `%08X` / `%016X` as used for conflict identifiers and
resource-key display strings. -/
/-- One uppercase hexadecimal digit. -/
def hexDigitChar (n : Nat) : Char :=
  if n < 10 then Char.ofNat (48 + n) else Char.ofNat (55 + n)

/-- Uppercase hexadecimal digits of `n`, most significant first; empty for 0.
`fuel` bounds the recursion (64 is enough for any u64). -/
def hexDigits : Nat → Nat → List Char
  | 0, _ => []
  | fuel + 1, n =>
      if n = 0 then [] else hexDigits fuel (n / 16) ++ [hexDigitChar (n % 16)]

/-- The character list of Python `format(n, "0<w>X")`: uppercase hex digits,
left-padded with zeros to width `w`. -/
def natToHexDigits (n w : Nat) : List Char :=
  let ds := if n = 0 then ['0'] else hexDigits 64 n
  List.replicate (w - ds.length) '0' ++ ds

/-- Python `format(n, "0<w>X")`: uppercase hex, left-padded with zeros to
width `w`. -/
def natToHex (n w : Nat) : String :=
  String.mk (natToHexDigits n w)

/-! ### Hexadecimal formatting is injective on machine-bounded values -/
/-- The numeric value of an uppercase hexadecimal digit character. -/
def hexCharVal (c : Char) : Nat :=
  if c.toNat ≥ 65 then c.toNat - 55 else c.toNat - 48

/-- Parse a big-endian hexadecimal digit string. -/
def ofHexDigits (ds : List Char) : Nat :=
  ds.foldl (fun a c => 16 * a + hexCharVal c) 0

/-! ## Insertion-ordered association index

Both detectors build a `defaultdict(list)` by appending values under keys while
walking the mods in order.  A Python dict iterates in key insertion order, so
the embedding is an association list: a new key is appended at the end, an
existing key has the value appended to its list in place. -/
/-- Append value `v` under key `k`, preserving key insertion order. -/
def addEntry {κ ν : Type} [DecidableEq κ] :
    List (κ × List ν) → κ → ν → List (κ × List ν)
  | [], k, v => [(k, [v])]
  | (k', vs) :: rest, k, v =>
      if k' = k then (k', vs ++ [v]) :: rest else (k', vs) :: addEntry rest k v

/-- The index built from a list of (key, value) entries in order. -/
def buildIndex {κ ν : Type} [DecidableEq κ] (entries : List (κ × ν)) :
    List (κ × List ν) :=
  entries.foldl (fun idx e => addEntry idx e.1 e.2) []

/-- The value list stored under key `k` (empty when absent). -/
def indexVals {κ ν : Type} [DecidableEq κ] : List (κ × List ν) → κ → List ν
  | [], _ => []
  | (k', vs) :: rest, k => if k' = k then vs else indexVals rest k

/-- The keys of an index, in insertion order. -/
def indexKeys {κ ν : Type} (idx : List (κ × List ν)) : List κ :=
  idx.map Prod.fst

/-! ## Severity classifier (detectors/base.py, ConflictDetector.calculate_severity) -/
/-- `ConflictDetector.calculate_severity`, translated condition for condition
from detectors/base.py. -/
def calculate_severity (conflict_type : ConflictType) (affected_count : Nat)
    (is_core_resource : Bool) : Severity :=
  -- Core resources are always critical
  if is_core_resource then Severity.CRITICAL
  -- Script injections are high risk
  else if conflict_type = ConflictType.SCRIPT_INJECTION then
    if affected_count ≥ 3 then Severity.CRITICAL
    else if affected_count ≥ 2 then Severity.HIGH
    else Severity.MEDIUM
  -- Tuning overlaps
  else if conflict_type = ConflictType.TUNING_OVERLAP then
    if affected_count ≥ 3 then Severity.HIGH
    else if affected_count ≥ 2 then Severity.MEDIUM
    else Severity.LOW
  -- Resource duplicates
  else if conflict_type = ConflictType.RESOURCE_DUPLICATE then
    if affected_count ≥ 3 then Severity.MEDIUM
    else Severity.LOW
  -- Missing dependencies
  else if conflict_type = ConflictType.DEPENDENCY_MISSING then Severity.HIGH
  -- Version conflicts
  else if conflict_type = ConflictType.VERSION_CONFLICT then Severity.MEDIUM
  -- Namespace collisions
  else if conflict_type = ConflictType.NAMESPACE_COLLISION then
    if affected_count ≥ 2 then Severity.HIGH
    else Severity.MEDIUM
  -- Default to medium
  else Severity.MEDIUM

/-- The specification decision table of spec §4.1, written from the spec text
(for the refinement claim C1), with its rules in the spec priority order. -/
def severitySpecTable (kind : ConflictType) (count : Nat) (is_core : Bool) : Severity :=
  if is_core then Severity.CRITICAL
  else
    match kind with
    | ConflictType.SCRIPT_INJECTION =>
        if count ≥ 3 then Severity.CRITICAL
        else if count = 2 then Severity.HIGH
        else Severity.MEDIUM
    | ConflictType.TUNING_OVERLAP =>
        if count ≥ 3 then Severity.HIGH
        else if count = 2 then Severity.MEDIUM
        else Severity.LOW
    | ConflictType.RESOURCE_DUPLICATE =>
        if count ≥ 3 then Severity.MEDIUM
        else Severity.LOW
    | ConflictType.DEPENDENCY_MISSING => Severity.HIGH
    | ConflictType.VERSION_CONFLICT => Severity.MEDIUM
    | ConflictType.NAMESPACE_COLLISION =>
        if count ≥ 2 then Severity.HIGH
        else Severity.MEDIUM

/-! ## Conflict ids and shared detector helpers (detectors/base.py) -/
/-- Python `s[:n]` on a string. -/
def strTake (s : String) (n : Nat) : String := String.mk (s.data.take n)

/-- Python `s.lower()` (the detector applies it to ASCII enum values). -/
def strLower (s : String) : String := String.mk (s.data.map Char.toLower)

/-- `ConflictDetector.generate_conflict_id`: the first four characters of the
lowercased enum value, an underscore, then the identifier. -/
def generate_conflict_id (conflict_type : ConflictType) (identifier : String) : String :=
  strTake (strLower conflict_type.value) 4 ++ "_" ++ identifier

/-- `ConflictDetector.create_conflict`: build a `ModConflict` with severity
calculated from the affected count. -/
def create_conflict (conflict_type : ConflictType) (affected_mods : List String)
    (description : String) (identifier : String) (resolution : Option String)
    (details : ConflictDetails) (is_core_resource : Bool) : ModConflict :=
  { id := generate_conflict_id conflict_type identifier
    severity := calculate_severity conflict_type affected_mods.length is_core_resource
    type := conflict_type
    affected_mods := affected_mods
    description := description
    resolution := resolution
    details := details }

namespace SeverityRules

/-- `SeverityRules.CORE_TUNING_TYPES` (a set literal in base.py). -/
def CORE_TUNING_TYPES : List String :=
  ["Buff", "Trait", "Skill", "Career", "Aspiration", "Commodity"]

/-- `SeverityRules.is_core_tuning`. -/
def is_core_tuning (tuning_class : String) : Bool :=
  CORE_TUNING_TYPES.contains tuning_class

end SeverityRules

namespace ConflictResolutions

def TUNING_OVERLAP : String :=
  "Keep only one mod that modifies this tuning, or find a compatibility patch that merges both modifications."

def RESOURCE_DUPLICATE : String :=
  "Remove duplicate resources. Keep the mod with the desired version. Check mod descriptions for which is recommended."

end ConflictResolutions

namespace TuningConflictDetector

/-! ## Tuning conflict detector (detectors/tuning_conflicts.py) -/
/-- The (instance id, (mod, tuning)) pairs the nested index-building loops
visit, in visit order. -/
def tuningEntries (mods : List Mod) : List (Nat × (Mod × TuningData)) :=
  mods.flatMap (fun m => m.tunings.map (fun t => (t.instance_id, (m, t))))

/-- `TuningConflictDetector._build_tuning_index`: nested loops over mods and
their tunings, appending into a `defaultdict(list)` keyed by instance id. -/
def _build_tuning_index (mods : List Mod) :
    List (Nat × List (Mod × TuningData)) :=
  buildIndex (tuningEntries mods)

/-- The number of tuning records carrying instance id `i` across all mods,
counting duplicates inside a single mod. -/
def tuningRecordCount (mods : List Mod) (i : Nat) : Nat :=
  ((mods.flatMap (fun m => m.tunings)).filter (fun t => decide (t.instance_id = i))).length

/-- Stand-in for `tuning_entries[0]` when the list is empty; the source only
calls `_create_tuning_conflict` with lists of length ≥ 2, so this default is
never observable through `detect`. -/
def defaultTuning : TuningData :=
  { instance_id := 0, tuning_name := "unknown", tuning_class := "unknown",
    module := "unknown" }

/-- `TuningConflictDetector._create_tuning_conflict`. -/
def _create_tuning_conflict (tuning_id : Nat)
    (tuning_entries : List (Mod × TuningData)) : ModConflict :=
  let affected_mods := tuning_entries.map (fun p => p.1.name)
  let first_tuning := ((tuning_entries.head?).map Prod.snd).getD defaultTuning
  let tuning_class := first_tuning.tuning_class
  let tuning_name := first_tuning.tuning_name
  let is_core := SeverityRules.is_core_tuning tuning_class
  let description :=
    "Tuning \x27" ++ tuning_name ++ "\x27 (ID: 0x" ++ natToHex tuning_id 8 ++
      ", Class: " ++ tuning_class ++ ") is modified by " ++
      toString affected_mods.length ++
      " mods. Only one mod\x27s changes will apply (last loaded wins)."
  create_conflict ConflictType.TUNING_OVERLAP affected_mods description
    (natToHex tuning_id 8) (some ConflictResolutions.TUNING_OVERLAP)
    { tuning_id := some tuning_id
      tuning_class := some tuning_class
      mod_count := some affected_mods.length
      is_core_tuning := some is_core }
    is_core

/-- `TuningConflictDetector.detect`: emit one conflict for every index entry
with more than one (mod, tuning) pair, in index order. -/
def detect (mods : List Mod) : List ModConflict :=
  ((_build_tuning_index mods).filter (fun p => decide (p.2.length > 1))).map
    (fun p => _create_tuning_conflict p.1 p.2)

end TuningConflictDetector

namespace ResourceConflictDetector

/-! ## Resource conflict detector (detectors/resource_conflicts.py) -/
/-- `ResourceConflictDetector.CRITICAL_RESOURCE_TYPES`. -/
def CRITICAL_RESOURCE_TYPES : List Nat :=
  [0x545503B2, 0x0333406C, 0x034AEECB, 0x00B2D882]

/-- `ResourceConflictDetector._get_resource_type_name`. -/
def _get_resource_type_name (resource_type : Nat) : String :=
  if resource_type = 0x545503B2 then "SimData"
  else if resource_type = 0x0333406C then "Object Definition"
  else if resource_type = 0x034AEECB then "Object Key"
  else if resource_type = 0x00B2D882 then "CAS Part"
  else if resource_type = 0x319E4F1D then "String Table"
  else if resource_type = 0x2E75C764 then "Texture"
  else if resource_type = 0x015A1849 then "Geometry"
  else if resource_type = 0x8EAF13DE then "Animation"
  else if resource_type = 0x62B1D5C6 then "Audio"
  else "Unknown"

/-- `ResourceConflictDetector._build_resource_index`: nested loops over mods
and their (deduplicated) resource keys into a `defaultdict(list)`. -/
def _build_resource_index (mods : List Mod) :
    List ((Nat × Nat × Nat) × List Mod) :=
  buildIndex (mods.flatMap (fun m => m.resource_keys.map (fun k => (k, m))))

/-- The resource-key display string
`f"0x{type:08X}:0x{group:08X}:0x{instance:016X}"`. -/
def keyString (k : Nat × Nat × Nat) : String :=
  "0x" ++ natToHex k.1 8 ++ ":0x" ++ natToHex k.2.1 8 ++ ":0x" ++ natToHex k.2.2 16

/-- The conflict identifier `f"{type:08X}_{group:08X}_{instance:016X}"`. -/
def keyIdentifier (k : Nat × Nat × Nat) : String :=
  natToHex k.1 8 ++ "_" ++ natToHex k.2.1 8 ++ "_" ++ natToHex k.2.2 16

/-- `ResourceConflictDetector._create_resource_conflict`. -/
def _create_resource_conflict (resource_key : Nat × Nat × Nat)
    (mod_list : List Mod) : ModConflict :=
  let resource_type := resource_key.1
  let is_critical := CRITICAL_RESOURCE_TYPES.contains resource_type
  let key_string := keyString resource_key
  let resource_type_name := _get_resource_type_name resource_type
  let description :=
    "Resource " ++ key_string ++ " (" ++ resource_type_name ++ ") is present in " ++
      toString mod_list.length ++
      " mods. Only one version will be used (last loaded wins)." ++
      (if is_critical then " This is a critical resource that affects core gameplay."
       else "")
  create_conflict ConflictType.RESOURCE_DUPLICATE (mod_list.map Mod.name) description
    (keyIdentifier resource_key) (some ConflictResolutions.RESOURCE_DUPLICATE)
    { resource_key := some key_string
      resource_type := some resource_type
      resource_type_name := some resource_type_name
      mod_count := some mod_list.length
      is_critical_resource := some is_critical
      affected_mod_names := some (mod_list.map Mod.name) }
    is_critical

/-- The hash index of `_detect_hash_collisions`: mods with a truthy
(non-empty) hash string, keyed by hash. -/
def _build_hash_index (mods : List Mod) : List (String × List Mod) :=
  buildIndex ((mods.filter (fun m => decide (m.hash ≠ ""))).map (fun m => (m.hash, m)))

/-- `ResourceConflictDetector._detect_hash_collisions`: emit one conflict per
hash held by more than one mod. -/
def _detect_hash_collisions (mods : List Mod) : List ModConflict :=
  ((_build_hash_index mods).filter (fun p => decide (p.2.length > 1))).map (fun p =>
    let file_hash := p.1
    let mod_list := p.2
    let description :=
      "Multiple mods have identical file hashes (" ++ strTake file_hash 12 ++
        "...). This likely indicates duplicate content. Consider keeping only one."
    create_conflict ConflictType.RESOURCE_DUPLICATE (mod_list.map Mod.name)
      description ("hash_" ++ strTake file_hash 16)
      (some ("These mods appear to be duplicates. Keep only one to save " ++
        "space and avoid potential conflicts."))
      { file_hash := some file_hash
        mod_count := some mod_list.length
        affected_mod_names := some (mod_list.map Mod.name) }
      false)

/-- `ResourceConflictDetector.detect`: key-based conflicts from the resource
index in index order, then the hash-collision conflicts. -/
def detect (mods : List Mod) : List ModConflict :=
  ((_build_resource_index mods).filter (fun p => decide (p.2.length > 1))).map
      (fun p => _create_resource_conflict p.1 p.2) ++
    _detect_hash_collisions mods

/-- The u32/u32/u64 bounds the DBPF parser guarantees for every resource key
it produces (`struct.unpack` of 4-, 4- and 8-byte fields). -/
def KeyBounded (k : Nat × Nat × Nat) : Prop :=
  k.1 < 2 ^ 32 ∧ k.2.1 < 2 ^ 32 ∧ k.2.2 < 2 ^ 64

instance (k : Nat × Nat × Nat) : Decidable (KeyBounded k) := by
  unfold KeyBounded
  infer_instance

end ResourceConflictDetector

namespace ModAnalyzer

/-! ## Full default pipeline (analyzers/mod_analyzer.py) -/
/-- `ModAnalyzer.detect_conflicts` with the default detector list
`[TuningConflictDetector(), ResourceConflictDetector()]`: run each detector in
order and concatenate (`run` only records datetime metadata around `detect`). -/
def detect_conflicts (mods : List Mod) : List ModConflict :=
  TuningConflictDetector.detect mods ++ ResourceConflictDetector.detect mods

end ModAnalyzer

/-! ## Legacy analyzer module collisions (analyzer.py) -/
/-- The fields of `ScriptModMetadata` (script_metadata.py) consumed by the
legacy `ModAnalyzer._detect_conflicts` in analyzer.py: `path.name` and the set
of declared module names (embedded as one enumeration of the set). -/
structure ScriptModMetadata where
  path_name : String
  module_names : List String
deriving DecidableEq, Repr

/-- The legacy `ModConflict` dataclass defined in analyzer.py itself: plain
string severity and type, and no id or details fields. -/
structure LegacyModConflict where
  severity : String
  type : String
  affected_mods : List String
  description : String
  resolution : Option String := none
deriving DecidableEq, Repr

/-- Python string comparison: code-point lexicographic order on the character
sequences. -/
def charListLe : List Char → List Char → Bool
  | [], _ => true
  | _ :: _, [] => false
  | a :: as, b :: bs =>
      if a.toNat < b.toNat then true
      else if b.toNat < a.toNat then false
      else charListLe as bs

/-- Python `s1 <= s2` on strings. -/
def strLe (a b : String) : Bool := charListLe a.data b.data

/-- Insert into a sorted list (used to model Python `sorted`). -/
def sortedInsert (a : String) : List String → List String
  | [] => [a]
  | b :: t => if strLe a b then a :: b :: t else b :: sortedInsert a t

/-- Python `sorted` on a list of distinct strings: the unique ascending
enumeration, computed by insertion sort. -/
def sortStrings : List String → List String
  | [] => []
  | a :: t => sortedInsert a (sortStrings t)

/-- The description written for a module collision in analyzer.py. -/
def moduleCollisionDescription (module : String) : String :=
  "Multiple script mods provide the module \x27" ++ module ++
    "\x27, which can lead to injection conflicts."

/-- The legacy analyzer's module index: declared module name → owning file
names, in visit order. -/
def moduleIndex (script_metadata : List ScriptModMetadata) :
    List (String × List String) :=
  buildIndex (script_metadata.flatMap (fun meta =>
    meta.module_names.map (fun module => (module, meta.path_name))))

/-- `sorted(set(mods))` of analyzer.py: deduplicate, then sort ascending. -/
def uniqueOwners (mods : List String) : List String :=
  sortStrings mods.dedup

/-- The module-collision section of the legacy `ModAnalyzer._detect_conflicts`
(analyzer.py): for every indexed module name with at least two distinct owners
other than the empty name, emit one conflict with type string
`"SCRIPT_MODULE_COLLISION"` and the sorted deduplicated owner list
(`sorted(set(mods))`); the loop's `continue` is the filter below. -/
def detectModuleCollisions (script_metadata : List ScriptModMetadata) :
    List LegacyModConflict :=
  ((moduleIndex script_metadata).filter (fun p =>
      !(decide ((uniqueOwners p.2).length ≤ 1 ∨ p.1 = "")))).map (fun p =>
    { severity := "CRITICAL"
      type := "SCRIPT_MODULE_COLLISION"
      affected_mods := uniqueOwners p.2
      description := moduleCollisionDescription p.1
      resolution := some "Load only one version of the module or verify injector compatibility." })

/-! ## Dependency graph (analyzers/dependency_graph.py over networkx)

The class stores a `networkx.DiGraph`; the embedding keeps its observable
contents, a node list and a directed edge list `(dependent, dependency)`.
`networkx.topological_sort` is Kahn's algorithm (repeatedly emitting a node
whose remaining in-degree is zero, then raising `NetworkXUnfeasible` when nodes
remain), and `networkx.is_directed_acyclic_graph` is implemented by running
exactly that algorithm to completion; the embedding runs one deterministic
schedule of it, always picking the first zero-in-degree node in node order
(the tie-break among independent nodes is unspecified in networkx). -/
structure DependencyGraph where
  nodes : List String
  edges : List (String × String)
deriving DecidableEq, Repr

namespace DependencyGraph

/-- Invariants `nx.DiGraph` maintains for the graphs `add_mod` builds: nodes
are dict keys (no duplicates), adjacency is a set per node (no duplicate
edges), and `add_edge` auto-creates both endpoints as nodes. -/
def WF (g : DependencyGraph) : Prop :=
  g.nodes.Nodup ∧ g.edges.Nodup ∧ ∀ e ∈ g.edges, e.1 ∈ g.nodes ∧ e.2 ∈ g.nodes

instance (g : DependencyGraph) : Decidable g.WF := by
  unfold WF
  infer_instance

/-- The one-step edge relation of the graph: `edgeRel g a b` when the graph
has the directed edge `a → b` (dependent to dependency). -/
def edgeRel (g : DependencyGraph) (a b : String) : Prop := (a, b) ∈ g.edges

/-- Does node `n` still have an incoming edge from a remaining node? -/
def hasIncomingFrom (edges : List (String × String)) (remaining : List String)
    (n : String) : Bool :=
  edges.any (fun e => decide (e.2 = n ∧ e.1 ∈ remaining))

/-- The first remaining node of in-degree zero among the remaining nodes. -/
def pickZero (edges : List (String × String)) (remaining : List String) :
    Option String :=
  remaining.find? (fun n => !hasIncomingFrom edges remaining n)

/-- Kahn's algorithm: repeatedly emit a zero-in-degree node and remove it;
stop when none is left (cycle) or all nodes are emitted.  `fuel` bounds the
recursion by the node count. -/
def kahnAux (edges : List (String × String)) : Nat → List String → List String
  | 0, _ => []
  | fuel + 1, remaining =>
      match pickZero edges remaining with
      | none => []
      | some n => n :: kahnAux edges fuel (remaining.erase n)

/-- The order produced by `networkx.topological_sort` (dependents before their
dependencies, since edges point dependent → dependency). -/
def kahnOrder (g : DependencyGraph) : List String :=
  kahnAux g.edges g.nodes.length g.nodes

/-- `DependencyGraph.has_cycles`: `not nx.is_directed_acyclic_graph(graph)`,
i.e. Kahn's algorithm fails to emit every node. -/
def has_cycles (g : DependencyGraph) : Bool :=
  (kahnOrder g).length != g.nodes.length

/-- `DependencyGraph.topological_sort`: `None` when `has_cycles()`, otherwise
the reverse of the networkx order so that dependencies come first.  (The
source's `except NetworkXError` fallback is dead code: after the cycle guard
the sort cannot raise.) -/
def topological_sort (g : DependencyGraph) : Option (List String) :=
  if has_cycles g then none
  else some (kahnOrder g).reverse

/-! ### Reachability (networkx `descendants` / `ancestors`)

`nx.descendants(G, x)` is the set of nodes reachable from `x` excluding `x`
itself, computed by breadth-first search.  The embedding computes the
reachable set as a fixpoint of a single expansion step; `edges.length + 1`
iterations always reach the fixpoint. -/
/-- Add every edge target whose source is already in `s` (one BFS layer). -/
def reachStep (edges : List (String × String)) (s : List String) : List String :=
  s ++ ((edges.filter (fun e => decide (e.1 ∈ s ∧ e.2 ∉ s))).map Prod.snd).dedup

/-- Iterate `reachStep` `n` times. -/
def reachN (edges : List (String × String)) : Nat → List String → List String
  | 0, s => s
  | n + 1, s => reachStep edges (reachN edges n s)

/-- All nodes reachable from `x` (including `x`). -/
def reachableFrom (edges : List (String × String)) (x : String) : List String :=
  reachN edges (edges.length + 1) [x]

/-- `DependencyGraph.find_dependencies`: the empty set for an unknown node,
otherwise `nx.descendants` (everything reachable from the node, excluding the
node itself). -/
def find_dependencies (g : DependencyGraph) (mod_name : String) : List String :=
  if mod_name ∈ g.nodes then
    (reachableFrom g.edges mod_name).filter (fun y => decide (y ≠ mod_name))
  else []

/-- `DependencyGraph.find_dependents`: the empty set for an unknown node,
otherwise `nx.ancestors` (everything that reaches the node), computed as
descendants over the reversed edges. -/
def find_dependents (g : DependencyGraph) (mod_name : String) : List String :=
  if mod_name ∈ g.nodes then
    (reachableFrom (g.edges.map Prod.swap) mod_name).filter (fun y => decide (y ≠ mod_name))
  else []

end DependencyGraph

/-- The dependency chain A → B → C of spec §8 scenario 3. -/
def sampleChain : DependencyGraph :=
  { nodes := ["A", "B", "C"], edges := [("A", "B"), ("B", "C")] }

/-- A tuning record used by the concrete counterexamples. -/
def tShared : TuningData :=
  { instance_id := 7, tuning_name := "trait_shared", tuning_class := "Trait",
    module := "traits.shared" }

/-- A single artifact carrying the same tuning instance id twice. -/
def soloMod : Mod := { name := "Solo.package", tunings := [tShared, tShared] }

def cexB : Mod := { name := "B.package", tunings := [tShared] }

def cexA : Mod := { name := "A.package", tunings := [tShared, tShared] }

def rKeyHigh : DBPFResource := { type := 2, group := 0, inst := 0 }

def rKeyLow : DBPFResource := { type := 1, group := 0, inst := 0 }

def cM1 : Mod := { name := "M1.package", resources := [rKeyHigh] }

def cM2 : Mod := { name := "M2.package", resources := [rKeyHigh] }

def cM3 : Mod := { name := "M3.package", resources := [rKeyLow] }

def cM4 : Mod := { name := "M4.package", resources := [rKeyLow] }

/-- The two mods of the C2 witness, sharing resource key (7, 8, 9). -/
def wRes : DBPFResource := { type := 7, group := 8, inst := 9 }

def wModA : Mod := { name := "WA.package", resources := [wRes] }

def wModB : Mod := { name := "WB.package", resources := [wRes] }

def metaX : ScriptModMetadata :=
  { path_name := "x.ts4script", module_names := ["core_lib"] }

def metaY : ScriptModMetadata :=
  { path_name := "y.ts4script", module_names := ["core_lib"] }

/-! ## Theorems -/

theorem hexCharVal_hexDigitChar : ∀ d : Nat, d < 16 → hexCharVal (hexDigitChar d) = d := by
  decide

theorem ofHexDigits_foldl (ds : List Char) :
    ∀ a : Nat, ds.foldl (fun a c => 16 * a + hexCharVal c) a =
      ofHexDigits ds + a * 16 ^ ds.length := by
  induction ds with
  | nil => intro a; simp [ofHexDigits]
  | cons c t ih =>
      intro a
      unfold ofHexDigits
      rw [List.foldl_cons, List.foldl_cons, ih, ih (16 * 0 + hexCharVal c)]
      rw [List.length_cons, pow_succ]
      ring

theorem ofHexDigits_append (ds : List Char) (c : Char) :
    ofHexDigits (ds ++ [c]) = 16 * ofHexDigits ds + hexCharVal c := by
  unfold ofHexDigits
  rw [List.foldl_append]
  simp

theorem ofHexDigits_replicate_zero (m : Nat) (ds : List Char) :
    ofHexDigits (List.replicate m '0' ++ ds) = ofHexDigits ds := by
  induction m with
  | zero => simp
  | succ m ih =>
      rw [List.replicate_succ, List.cons_append]
      unfold ofHexDigits at ih ⊢
      rw [List.foldl_cons]
      have : (16 * 0 + hexCharVal '0') = 0 := by decide
      rw [this]
      exact ih

theorem ofHexDigits_hexDigits : ∀ fuel n : Nat, n < 16 ^ fuel →
    ofHexDigits (hexDigits fuel n) = n := by
  intro fuel
  induction fuel with
  | zero =>
      intro n hn
      interval_cases n
      rfl
  | succ f ih =>
      intro n hn
      by_cases hz : n = 0
      · subst hz
        simp [hexDigits, ofHexDigits]
      · rw [hexDigits, if_neg hz, ofHexDigits_append,
          ih (n / 16) (Nat.div_lt_of_lt_mul (by rw [pow_succ] at hn; omega)),
          hexCharVal_hexDigitChar (n % 16) (Nat.mod_lt n (by omega))]
        omega

/-- Parsing recovers the value of a padded hexadecimal rendering (63 hex
digits cover every u32/u64 field the detectors print). -/
theorem ofHexDigits_natToHexDigits (n w : Nat) (hn : n < 16 ^ 64) :
    ofHexDigits (natToHexDigits n w) = n := by
  unfold natToHexDigits
  by_cases hz : n = 0
  · subst hz
    simp only [if_pos rfl]
    rw [ofHexDigits_replicate_zero]
    rfl
  · simp only [if_neg hz]
    rw [ofHexDigits_replicate_zero]
    exact ofHexDigits_hexDigits 64 n hn

theorem hexDigits_length_le : ∀ fuel n k : Nat, n < 16 ^ k →
    (hexDigits fuel n).length ≤ k := by
  intro fuel
  induction fuel with
  | zero => intro n k _; simp [hexDigits]
  | succ f ih =>
      intro n k hn
      by_cases hz : n = 0
      · subst hz
        simp [hexDigits]
      · rw [hexDigits, if_neg hz]
        rw [List.length_append]
        cases k with
        | zero =>
            exfalso
            rw [pow_zero] at hn
            omega
        | succ k' =>
            have : n / 16 < 16 ^ k' := by
              rw [pow_succ] at hn
              exact Nat.div_lt_of_lt_mul (by omega)
            have := ih (n / 16) k' this
            simp only [List.length_singleton]
            omega

/-- A value below `16 ^ w` renders to exactly `w` characters (for positive
`w`). -/
theorem natToHexDigits_length (n w : Nat) (hw : 1 ≤ w) (hn : n < 16 ^ w) :
    (natToHexDigits n w).length = w := by
  have hds : (if n = 0 then ['0'] else hexDigits 64 n).length ≤ w := by
    by_cases hz : n = 0
    · simpa [hz] using hw
    · rw [if_neg hz]
      exact hexDigits_length_le 64 n w hn
  unfold natToHexDigits
  rw [List.length_append, List.length_replicate]
  omega

theorem natToHex_data (n w : Nat) : (natToHex n w).data = natToHexDigits n w := rfl

/-- Padded hexadecimal rendering is injective below the u64 bound. -/
theorem natToHex_inj {n₁ n₂ : Nat} (w : Nat) (h₁ : n₁ < 16 ^ 64) (h₂ : n₂ < 16 ^ 64)
    (h : natToHex n₁ w = natToHex n₂ w) : n₁ = n₂ := by
  have hd : natToHexDigits n₁ w = natToHexDigits n₂ w := by
    rw [← natToHex_data, ← natToHex_data, h]
  calc n₁ = ofHexDigits (natToHexDigits n₁ w) := (ofHexDigits_natToHexDigits n₁ w h₁).symm
    _ = ofHexDigits (natToHexDigits n₂ w) := by rw [hd]
    _ = n₂ := ofHexDigits_natToHexDigits n₂ w h₂

/-- Padded hexadecimal digit lists are injective below the u64 bound. -/
theorem natToHexDigits_inj {n₁ n₂ : Nat} (w : Nat) (h₁ : n₁ < 16 ^ 64)
    (h₂ : n₂ < 16 ^ 64) (h : natToHexDigits n₁ w = natToHexDigits n₂ w) :
    n₁ = n₂ := by
  calc n₁ = ofHexDigits (natToHexDigits n₁ w) := (ofHexDigits_natToHexDigits n₁ w h₁).symm
    _ = ofHexDigits (natToHexDigits n₂ w) := by rw [h]
    _ = n₂ := ofHexDigits_natToHexDigits n₂ w h₂

theorem indexVals_addEntry_same {κ ν : Type} [DecidableEq κ]
    (idx : List (κ × List ν)) (k : κ) (v : ν) :
    indexVals (addEntry idx k v) k = indexVals idx k ++ [v] := by
  induction idx with
  | nil => simp [addEntry, indexVals]
  | cons p rest ih =>
      obtain ⟨k', vs⟩ := p
      by_cases h : k' = k <;> simp [addEntry, indexVals, h, ih]

theorem indexVals_addEntry_ne {κ ν : Type} [DecidableEq κ]
    (idx : List (κ × List ν)) (k k₀ : κ) (v : ν) (hne : k₀ ≠ k) :
    indexVals (addEntry idx k v) k₀ = indexVals idx k₀ := by
  induction idx with
  | nil => simp [addEntry, indexVals, Ne.symm hne]
  | cons p rest ih =>
      obtain ⟨k', vs⟩ := p
      by_cases h : k' = k
      · subst h
        simp [addEntry, indexVals, Ne.symm hne]
      · simp only [addEntry, if_neg h, indexVals]
        by_cases h₀ : k' = k₀
        · simp [h₀]
        · simp [h₀, ih]

theorem indexKeys_addEntry {κ ν : Type} [DecidableEq κ]
    (idx : List (κ × List ν)) (k : κ) (v : ν) :
    indexKeys (addEntry idx k v) =
      if k ∈ indexKeys idx then indexKeys idx else indexKeys idx ++ [k] := by
  induction idx with
  | nil => simp [addEntry, indexKeys]
  | cons p rest ih =>
      obtain ⟨k', vs⟩ := p
      by_cases h : k' = k
      · subst h
        simp [addEntry, indexKeys]
      · simp only [addEntry, if_neg h, indexKeys, List.map_cons] at ih ⊢
        rw [ih]
        by_cases hmem : k ∈ List.map Prod.fst rest <;>
          simp [hmem, Ne.symm h]

theorem indexKeys_nodup_addEntry {κ ν : Type} [DecidableEq κ]
    (idx : List (κ × List ν)) (k : κ) (v : ν)
    (h : (indexKeys idx).Nodup) : (indexKeys (addEntry idx k v)).Nodup := by
  rw [indexKeys_addEntry]
  by_cases hmem : k ∈ indexKeys idx
  · simpa [hmem] using h
  · rw [if_neg hmem, List.nodup_append]
    refine ⟨h, List.nodup_singleton k, ?_⟩
    intro a ha hk
    simp only [List.mem_singleton] at hk
    subst hk
    exact hmem ha

theorem indexVals_ne_nil_addEntry {κ ν : Type} [DecidableEq κ]
    (idx : List (κ × List ν)) (k : κ) (v : ν)
    (h : ∀ p ∈ idx, p.2 ≠ []) : ∀ p ∈ addEntry idx k v, p.2 ≠ [] := by
  induction idx with
  | nil =>
      intro p hp
      simp only [addEntry] at hp
      rw [List.mem_singleton] at hp
      subst hp
      simp
  | cons q rest ih =>
      obtain ⟨k', vs⟩ := q
      intro p hp
      simp only [addEntry] at hp
      split at hp
      · rcases List.mem_cons.mp hp with h1 | h1
        · subst h1
          simp
        · exact h p (List.mem_cons_of_mem _ h1)
      · rcases List.mem_cons.mp hp with h1 | h1
        · subst h1
          exact h (k', vs) (List.mem_cons_self _ _)
        · exact ih (fun r hr => h r (List.mem_cons_of_mem _ hr)) p h1

theorem indexVals_foldl {κ ν : Type} [DecidableEq κ]
    (entries : List (κ × ν)) (idx₀ : List (κ × List ν)) (k : κ) :
    indexVals (entries.foldl (fun idx e => addEntry idx e.1 e.2) idx₀) k =
      indexVals idx₀ k ++ (entries.filter (fun e => decide (e.1 = k))).map Prod.snd := by
  induction entries generalizing idx₀ with
  | nil => simp
  | cons e rest ih =>
      rw [List.foldl_cons, ih, List.filter_cons]
      by_cases h : e.1 = k
      · simp [h, indexVals_addEntry_same, List.append_assoc]
      · simp [h, indexVals_addEntry_ne _ _ _ _ (Ne.symm h)]

/-- The value list of the built index under `k` is exactly the values of the
entries carrying key `k`, in entry order. -/
theorem buildIndex_vals {κ ν : Type} [DecidableEq κ] (entries : List (κ × ν)) (k : κ) :
    indexVals (buildIndex entries) k =
      (entries.filter (fun e => decide (e.1 = k))).map Prod.snd := by
  simpa [indexVals] using indexVals_foldl entries [] k

theorem buildIndex_keys_nodup {κ ν : Type} [DecidableEq κ] (entries : List (κ × ν)) :
    (indexKeys (buildIndex entries)).Nodup := by
  suffices h : ∀ idx₀ : List (κ × List ν), (indexKeys idx₀).Nodup →
      (indexKeys (entries.foldl (fun idx e => addEntry idx e.1 e.2) idx₀)).Nodup by
    exact h [] (by simp [indexKeys])
  induction entries with
  | nil => intro idx₀ h; simpa using h
  | cons e rest ih =>
      intro idx₀ h
      exact ih _ (indexKeys_nodup_addEntry _ _ _ h)

theorem buildIndex_vals_ne_nil {κ ν : Type} [DecidableEq κ] (entries : List (κ × ν)) :
    ∀ p ∈ buildIndex entries, p.2 ≠ [] := by
  suffices h : ∀ idx₀ : List (κ × List ν), (∀ p ∈ idx₀, p.2 ≠ []) →
      ∀ p ∈ entries.foldl (fun idx e => addEntry idx e.1 e.2) idx₀, p.2 ≠ [] by
    exact h [] (by simp)
  induction entries with
  | nil => intro idx₀ h; simpa using h
  | cons e rest ih =>
      intro idx₀ h
      exact ih _ (indexVals_ne_nil_addEntry _ _ _ h)

/-- In an index with distinct keys, a member pair is determined by its key. -/
theorem mem_index_eq_vals {κ ν : Type} [DecidableEq κ]
    (idx : List (κ × List ν)) (h : (indexKeys idx).Nodup)
    {k : κ} {vs : List ν} (hmem : (k, vs) ∈ idx) : vs = indexVals idx k := by
  induction idx with
  | nil => simp at hmem
  | cons p rest ih =>
      obtain ⟨k', vs'⟩ := p
      simp only [indexKeys, List.map_cons, List.nodup_cons] at h
      rcases List.mem_cons.mp hmem with hp | hp
      · cases hp
        simp [indexVals]
      · have hk : k' ≠ k := by
          intro hkk
          subst hkk
          exact h.1 (List.mem_map.mpr ⟨(k', vs), hp, rfl⟩)
        simp only [indexVals, if_neg hk]
        exact ih h.2 hp

theorem vals_mem_index {κ ν : Type} [DecidableEq κ]
    (idx : List (κ × List ν)) (k : κ) (h : indexVals idx k ≠ []) :
    (k, indexVals idx k) ∈ idx := by
  induction idx with
  | nil => simp [indexVals] at h
  | cons p rest ih =>
      obtain ⟨k', vs'⟩ := p
      by_cases hk : k' = k
      · subst hk
        simp [indexVals]
      · simp only [indexVals, if_neg hk] at h ⊢
        exact List.mem_cons_of_mem _ (ih h)

/-- In an index with distinct keys, exactly one pair carries key `k` when `k`
is present and none otherwise. -/
theorem countP_index_key {κ ν : Type} [DecidableEq κ]
    (idx : List (κ × List ν)) (h : (indexKeys idx).Nodup) (k : κ) :
    idx.countP (fun p => decide (p.1 = k)) =
      if k ∈ indexKeys idx then 1 else 0 := by
  induction idx with
  | nil => simp [indexKeys]
  | cons p rest ih =>
      obtain ⟨k', vs'⟩ := p
      simp only [indexKeys, List.map_cons, List.nodup_cons] at h ⊢
      simp only [indexKeys] at ih
      rw [List.countP_cons, ih h.2]
      by_cases hk : k' = k
      · subst hk
        rw [if_neg h.1]
        simp
      · have hmem : (k ∈ k' :: List.map Prod.fst rest) ↔ k ∈ List.map Prod.fst rest := by
          rw [List.mem_cons]
          exact or_iff_right (Ne.symm hk)
        rw [if_congr hmem rfl rfl]
        simp [hk]

theorem mem_indexKeys_iff_vals_ne_nil {κ ν : Type} [DecidableEq κ]
    (idx : List (κ × List ν)) (hne : ∀ p ∈ idx, p.2 ≠ []) (k : κ) :
    k ∈ indexKeys idx ↔ indexVals idx k ≠ [] := by
  induction idx with
  | nil => simp [indexKeys, indexVals]
  | cons p rest ih =>
      obtain ⟨k', vs'⟩ := p
      simp only [indexKeys, List.map_cons, List.mem_cons, indexVals]
      by_cases hk : k' = k
      · subst hk
        rw [if_pos rfl]
        exact iff_of_true (Or.inl rfl) (hne (k', vs') (List.mem_cons_self _ _))
      · rw [if_neg hk]
        have := ih (fun q hq => hne q (List.mem_cons_of_mem _ hq))
        simp only [indexKeys] at this
        rw [← this]
        constructor
        · intro h
          rcases h with h | h
          · exact absurd h.symm hk
          · exact h
        · intro h
          right
          exact h

theorem countP_key_zero_of_not_mem {κ ν : Type} [DecidableEq κ]
    (idx : List (κ × List ν)) (k : κ) (Q : List ν → Bool)
    (h : k ∉ indexKeys idx) :
    idx.countP (fun p => decide (p.1 = k) && Q p.2) = 0 := by
  rw [List.countP_eq_zero]
  intro p hp
  simp only [Bool.and_eq_true, decide_eq_true_eq, not_and]
  intro hk _
  exact h (hk ▸ List.mem_map.mpr ⟨p, hp, rfl⟩)

/-- In an index with distinct keys and non-empty value lists, counting the
pairs whose key is `k` and whose value list satisfies `Q` gives one when `k`
is present with `Q` holding and zero otherwise. -/
theorem countP_index_key_and {κ ν : Type} [DecidableEq κ]
    (idx : List (κ × List ν)) (hnd : (indexKeys idx).Nodup) (k : κ)
    (Q : List ν → Bool) :
    idx.countP (fun p => decide (p.1 = k) && Q p.2) =
      if k ∈ indexKeys idx ∧ Q (indexVals idx k) then 1 else 0 := by
  induction idx with
  | nil => simp [indexKeys, indexVals]
  | cons p rest ih =>
      obtain ⟨k', vs'⟩ := p
      simp only [indexKeys, List.map_cons, List.nodup_cons] at hnd
      rw [List.countP_cons]
      by_cases hk : k' = k
      · subst hk
        have hz : rest.countP (fun p => decide (p.1 = k') && Q p.2) = 0 :=
          countP_key_zero_of_not_mem rest k' Q (by simpa [indexKeys] using hnd.1)
        rw [hz]
        simp only [indexVals, indexKeys, List.mem_cons, if_pos rfl]
        by_cases hQ : Q vs' = true
        · simp [hQ]
        · simp [hQ]
      · have ih' := ih hnd.2
        simp only [indexKeys] at ih'
        rw [ih']
        simp only [indexVals, if_neg hk, indexKeys, List.map_cons, List.mem_cons]
        have hmem : (k = k' ∨ k ∈ List.map Prod.fst rest) ↔ k ∈ List.map Prod.fst rest :=
          or_iff_right (Ne.symm hk)
        rw [if_congr (and_congr_left' hmem) rfl rfl]
        simp [hk]

/-! ### Small list facts used by the detector proofs -/
theorem two_le_length_of_mem_ne {α : Type} {l : List α} {a b : α}
    (ha : a ∈ l) (hb : b ∈ l) (hab : a ≠ b) : 2 ≤ l.length := by
  match l with
  | [] => exact absurd ha (List.not_mem_nil a)
  | [x] =>
      rw [List.mem_singleton] at ha hb
      exact absurd (ha.trans hb.symm) hab
  | x :: y :: t => simp [Nat.le_add_left]

theorem filter_eq_of_nodup {α : Type} [DecidableEq α] :
    ∀ (l : List α), l.Nodup → ∀ k : α,
      l.filter (fun x => decide (x = k)) = if k ∈ l then [k] else [] := by
  intro l
  induction l with
  | nil => intro _ k; simp
  | cons x t ih =>
      intro hnd k
      rw [List.nodup_cons] at hnd
      rw [List.filter_cons]
      by_cases hx : x = k
      · subst hx
        have : t.filter (fun y => decide (y = x)) = [] := by
          rw [List.filter_eq_nil_iff]
          intro a ha
          simp only [decide_eq_true_eq]
          intro h
          exact hnd.1 (h ▸ ha)
        simp [this]
      · rw [ih hnd.2 k]
        have hkx : k ≠ x := Ne.symm hx
        by_cases hk : k ∈ t <;> simp [hx, hk, hkx]

/-- C1: for every conflict kind, affected count and is-core flag, the severity
classifier is total and returns exactly the severity of the decision table of
spec §4.1. -/
theorem calculate_severity_matches_spec_table (kind : ConflictType) (count : Nat)
    (is_core : Bool) :
    calculate_severity kind count is_core = severitySpecTable kind count is_core := by
  cases kind <;> cases is_core <;>
    simp only [calculate_severity, severitySpecTable] <;>
    split_ifs <;> first | rfl | omega

namespace ResourceConflictDetector

/-- On parser-bounded keys the display string determines the key. -/
theorem keyString_inj {k₁ k₂ : Nat × Nat × Nat} (h₁ : KeyBounded k₁)
    (h₂ : KeyBounded k₂) (h : keyString k₁ = keyString k₂) : k₁ = k₂ := by
  obtain ⟨t₁, g₁, i₁⟩ := k₁
  obtain ⟨t₂, g₂, i₂⟩ := k₂
  obtain ⟨hb1t, hb1g, hb1i⟩ := h₁
  obtain ⟨hb2t, hb2g, hb2i⟩ := h₂
  simp only at hb1t hb1g hb1i hb2t hb2g hb2i
  have h16_8 : (2 : Nat) ^ 32 = 16 ^ 8 := by norm_num
  have h16_16 : (2 : Nat) ^ 64 = 16 ^ 16 := by norm_num
  have h64t1 : t₁ < 16 ^ 64 := lt_of_lt_of_le (h16_8 ▸ hb1t)
    (Nat.pow_le_pow_right (by norm_num) (by norm_num))
  have h64t2 : t₂ < 16 ^ 64 := lt_of_lt_of_le (h16_8 ▸ hb2t)
    (Nat.pow_le_pow_right (by norm_num) (by norm_num))
  have h64g1 : g₁ < 16 ^ 64 := lt_of_lt_of_le (h16_8 ▸ hb1g)
    (Nat.pow_le_pow_right (by norm_num) (by norm_num))
  have h64g2 : g₂ < 16 ^ 64 := lt_of_lt_of_le (h16_8 ▸ hb2g)
    (Nat.pow_le_pow_right (by norm_num) (by norm_num))
  have h64i1 : i₁ < 16 ^ 64 := lt_of_lt_of_le (h16_16 ▸ hb1i)
    (Nat.pow_le_pow_right (by norm_num) (by norm_num))
  have h64i2 : i₂ < 16 ^ 64 := lt_of_lt_of_le (h16_16 ▸ hb2i)
    (Nat.pow_le_pow_right (by norm_num) (by norm_num))
  have e : (((("0x".data ++ natToHexDigits t₁ 8) ++ ":0x".data) ++
        natToHexDigits g₁ 8 ++ ":0x".data) ++ natToHexDigits i₁ 16) =
      (((("0x".data ++ natToHexDigits t₂ 8) ++ ":0x".data) ++
        natToHexDigits g₂ 8 ++ ":0x".data) ++ natToHexDigits i₂ 16) :=
    congrArg String.data h
  have li : (natToHexDigits i₁ 16).length = (natToHexDigits i₂ 16).length := by
    rw [natToHexDigits_length i₁ 16 (by norm_num) (h16_16 ▸ hb1i),
      natToHexDigits_length i₂ 16 (by norm_num) (h16_16 ▸ hb2i)]
  obtain ⟨e5, eI⟩ := List.append_inj' e li
  have hi : i₁ = i₂ := natToHexDigits_inj 16 h64i1 h64i2 eI
  obtain ⟨e4, -⟩ := List.append_inj' e5 rfl
  have lg : (natToHexDigits g₁ 8).length = (natToHexDigits g₂ 8).length := by
    rw [natToHexDigits_length g₁ 8 (by norm_num) (h16_8 ▸ hb1g),
      natToHexDigits_length g₂ 8 (by norm_num) (h16_8 ▸ hb2g)]
  obtain ⟨e3, eG⟩ := List.append_inj' e4 lg
  have hg : g₁ = g₂ := natToHexDigits_inj 8 h64g1 h64g2 eG
  obtain ⟨e2, -⟩ := List.append_inj' e3 rfl
  have lt8 : (natToHexDigits t₁ 8).length = (natToHexDigits t₂ 8).length := by
    rw [natToHexDigits_length t₁ 8 (by norm_num) (h16_8 ▸ hb1t),
      natToHexDigits_length t₂ 8 (by norm_num) (h16_8 ▸ hb2t)]
  obtain ⟨-, eT⟩ := List.append_inj' e2 lt8
  have ht : t₁ = t₂ := natToHexDigits_inj 8 h64t1 h64t2 eT
  subst ht
  subst hg
  subst hi
  rfl

end ResourceConflictDetector

namespace DependencyGraph

theorem pickZero_mem {edges : List (String × String)} {remaining : List String}
    {n : String} (h : pickZero edges remaining = some n) : n ∈ remaining :=
  List.mem_of_find?_eq_some h

theorem pickZero_no_incoming {edges : List (String × String)}
    {remaining : List String} {n : String}
    (h : pickZero edges remaining = some n) :
    ∀ e ∈ edges, e.2 = n → e.1 ∉ remaining := by
  have hfind := List.find?_some h
  intro e he h2 h1
  have : hasIncomingFrom edges remaining n = true := by
    unfold hasIncomingFrom
    rw [List.any_eq_true]
    exact ⟨e, he, by simp [h2, h1]⟩
  rw [this] at hfind
  simp at hfind

theorem kahnAux_subset (edges : List (String × String)) :
    ∀ fuel remaining, ∀ x ∈ kahnAux edges fuel remaining, x ∈ remaining := by
  intro fuel
  induction fuel with
  | zero =>
      intro remaining x hx
      simp [kahnAux] at hx
  | succ f ih =>
      intro remaining x hx
      unfold kahnAux at hx
      cases hp : pickZero edges remaining with
      | none => rw [hp] at hx; simp at hx
      | some n =>
          rw [hp] at hx
          rcases List.mem_cons.mp hx with hx | hx
          · subst hx
            exact pickZero_mem hp
          · exact List.mem_of_mem_erase (ih _ x hx)

theorem kahnAux_nodup (edges : List (String × String)) :
    ∀ fuel remaining, remaining.Nodup → (kahnAux edges fuel remaining).Nodup := by
  intro fuel
  induction fuel with
  | zero => intro remaining _; simp [kahnAux]
  | succ f ih =>
      intro remaining h
      unfold kahnAux
      cases hp : pickZero edges remaining with
      | none => simp
      | some n =>
          rw [List.nodup_cons]
          refine ⟨?_, ih _ (h.erase n)⟩
          intro hmem
          have hin := kahnAux_subset edges f _ n hmem
          rcases (h.mem_erase_iff).mp hin with ⟨hne, _⟩
          exact hne rfl

/-- Kahn's output lists a dependent strictly before each of its dependencies:
if the edge `(u, v)` exists and `u` is still remaining, then whenever `v` is
emitted, `u` is emitted earlier. -/
theorem kahnAux_edge_order (edges : List (String × String)) :
    ∀ fuel remaining, remaining.Nodup →
      ∀ u v : String, (u, v) ∈ edges → u ∈ remaining →
        v ∈ kahnAux edges fuel remaining →
        u ∈ kahnAux edges fuel remaining ∧
          (kahnAux edges fuel remaining).indexOf u <
            (kahnAux edges fuel remaining).indexOf v := by
  intro fuel
  induction fuel with
  | zero =>
      intro remaining _ u v _ _ hv
      simp [kahnAux] at hv
  | succ f ih =>
      intro remaining hnd u v huv hu hv
      cases hp : pickZero edges remaining with
      | none =>
          rw [show kahnAux edges (f + 1) remaining = [] from by rw [kahnAux, hp]] at hv
          simp at hv
      | some n =>
          have hkahn : kahnAux edges (f + 1) remaining =
              n :: kahnAux edges f (remaining.erase n) := by
            rw [kahnAux, hp]
          rw [hkahn] at hv ⊢
          by_cases hvn : v = n
          · exfalso
            subst hvn
            exact pickZero_no_incoming hp (u, v) huv rfl hu
          · have hvrest : v ∈ kahnAux edges f (remaining.erase n) := by
              rcases List.mem_cons.mp hv with h | h
              · exact absurd h hvn
              · exact h
            by_cases hun : u = n
            · subst hun
              refine ⟨List.mem_cons_self _ _, ?_⟩
              rw [List.indexOf_cons_self]
              rw [List.indexOf_cons_ne _ (fun h => hvn h.symm)]
              exact Nat.succ_pos _
            · have hu' : u ∈ remaining.erase n :=
                (hnd.mem_erase_iff).mpr ⟨hun, hu⟩
              obtain ⟨humem, hlt⟩ := ih (remaining.erase n) (hnd.erase n) u v huv hu' hvrest
              refine ⟨List.mem_cons_of_mem _ humem, ?_⟩
              rw [List.indexOf_cons_ne _ (fun h => hun h.symm),
                List.indexOf_cons_ne _ (fun h => hvn h.symm)]
              exact Nat.succ_lt_succ hlt

/-- Reversing a duplicate-free list reverses the relative order of two of its
members. -/
theorem indexOf_reverse_flip {α : Type} [DecidableEq α] :
    ∀ {l : List α}, l.Nodup → ∀ {a b : α}, a ∈ l → b ∈ l →
      l.indexOf a < l.indexOf b → l.reverse.indexOf b < l.reverse.indexOf a := by
  intro l
  induction l with
  | nil => intro _ a b ha; simp at ha
  | cons c t ih =>
      intro hnd a b ha hb hab
      rw [List.nodup_cons] at hnd
      rw [List.reverse_cons]
      by_cases hac : a = c
      · subst hac
        have hbc : b ≠ a := by
          intro h
          subst h
          exact Nat.lt_irrefl _ hab
        have hbt : b ∈ t := by
          rcases List.mem_cons.mp hb with h | h
          · exact absurd h.symm (fun h => hbc h.symm)
          · exact h
        have hbrev : b ∈ t.reverse := List.mem_reverse.mpr hbt
        rw [List.indexOf_append_of_mem hbrev]
        have hanot : a ∉ t.reverse := fun h => hnd.1 (List.mem_reverse.mp h)
        rw [List.indexOf_append_of_not_mem hanot]
        calc t.reverse.indexOf b < t.reverse.length := List.indexOf_lt_length.mpr hbrev
          _ ≤ t.reverse.length + [a].indexOf a := Nat.le_add_right _ _
      · have hat : a ∈ t := by
          rcases List.mem_cons.mp ha with h | h
          · exact absurd h hac
          · exact h
        by_cases hbc : b = c
        · subst hbc
          rw [List.indexOf_cons_self] at hab
          exact absurd hab (Nat.not_lt_zero _)
        · have hbt : b ∈ t := by
            rcases List.mem_cons.mp hb with h | h
            · exact absurd h hbc
            · exact h
          rw [List.indexOf_cons_ne _ (fun h => hac h.symm),
            List.indexOf_cons_ne _ (fun h => hbc h.symm)] at hab
          have hab' : t.indexOf a < t.indexOf b := Nat.lt_of_succ_lt_succ hab
          have := ih hnd.2 hat hbt hab'
          rw [List.indexOf_append_of_mem (List.mem_reverse.mpr hbt),
            List.indexOf_append_of_mem (List.mem_reverse.mpr hat)]
          exact this

/-! ### Correctness of the breadth-first reachable-set computation -/
theorem subset_reachStep (edges : List (String × String)) (s : List String) :
    s ⊆ reachStep edges s :=
  fun _ hx => List.mem_append_left _ hx

theorem reachStep_nodup (edges : List (String × String)) (s : List String)
    (h : s.Nodup) : (reachStep edges s).Nodup := by
  unfold reachStep
  rw [List.nodup_append]
  refine ⟨h, List.nodup_dedup _, ?_⟩
  intro a ha hb
  rw [List.mem_dedup] at hb
  obtain ⟨e, he, rfl⟩ := List.mem_map.mp hb
  have hf := List.of_mem_filter he
  rw [decide_eq_true_eq] at hf
  exact hf.2 ha

theorem reachStep_subset_universe (edges : List (String × String))
    (s U : List String) (hU : ∀ e ∈ edges, e.2 ∈ U) (hs : s ⊆ U) :
    reachStep edges s ⊆ U := by
  intro a ha
  rcases List.mem_append.mp ha with ha | ha
  · exact hs ha
  · rw [List.mem_dedup] at ha
    obtain ⟨e, he, rfl⟩ := List.mem_map.mp ha
    exact hU e (List.mem_of_mem_filter he)

theorem reachStep_eq_of_nil (edges : List (String × String)) (s : List String)
    (h : ((edges.filter (fun e => decide (e.1 ∈ s ∧ e.2 ∉ s))).map Prod.snd).dedup = []) :
    reachStep edges s = s := by
  unfold reachStep
  rw [h, List.append_nil]

theorem reachStep_length_of_ne (edges : List (String × String)) (s : List String)
    (h : reachStep edges s ≠ s) : s.length + 1 ≤ (reachStep edges s).length := by
  unfold reachStep at h ⊢
  rw [List.length_append]
  cases hnil : ((edges.filter (fun e => decide (e.1 ∈ s ∧ e.2 ∉ s))).map Prod.snd).dedup with
  | nil =>
      exfalso
      rw [hnil, List.append_nil] at h
      exact h rfl
  | cons c t => simp [hnil]

theorem reachN_nodup (edges : List (String × String)) :
    ∀ n s, s.Nodup → (reachN edges n s).Nodup := by
  intro n
  induction n with
  | zero => intro s h; exact h
  | succ n ih => intro s h; exact reachStep_nodup _ _ (ih s h)

theorem reachN_subset_universe (edges : List (String × String)) (U : List String)
    (hU : ∀ e ∈ edges, e.2 ∈ U) :
    ∀ n s, s ⊆ U → reachN edges n s ⊆ U := by
  intro n
  induction n with
  | zero => intro s h; exact h
  | succ n ih => intro s h; exact reachStep_subset_universe _ _ _ hU (ih s h)

theorem subset_reachN (edges : List (String × String)) :
    ∀ n s, s ⊆ reachN edges n s := by
  intro n
  induction n with
  | zero => intro s; exact fun _ h => h
  | succ n ih =>
      intro s
      exact fun x hx => subset_reachStep edges (reachN edges n s) (ih s hx)

/-- Either an iteration has reached the fixpoint, or the set has grown by at
least one element per step. -/
theorem reachN_fix_or_grow (edges : List (String × String)) :
    ∀ n s, reachStep edges (reachN edges n s) = reachN edges n s ∨
      s.length + n ≤ (reachN edges n s).length := by
  intro n
  induction n with
  | zero => intro s; right; simp [reachN]
  | succ n ih =>
      intro s
      by_cases hfix : reachStep edges (reachN edges n s) = reachN edges n s
      · left
        have h1 : reachN edges (n + 1) s = reachN edges n s := hfix
        rw [h1, hfix]
      · right
        rcases ih s with h | h
        · exact absurd h hfix
        · show s.length + (n + 1) ≤ (reachStep edges (reachN edges n s)).length
          have := reachStep_length_of_ne edges _ hfix
          omega

/-- After `edges.length + 1` iterations from a singleton the computation is at
its fixpoint. -/
theorem reachableFrom_fix (edges : List (String × String)) (x : String) :
    reachStep edges (reachableFrom edges x) = reachableFrom edges x := by
  unfold reachableFrom
  rcases reachN_fix_or_grow edges (edges.length + 1) [x] with h | h
  · exact h
  · exfalso
    have hnd : (reachN edges (edges.length + 1) [x]).Nodup :=
      reachN_nodup edges _ _ (List.nodup_singleton x)
    have hsub : reachN edges (edges.length + 1) [x] ⊆ x :: edges.map Prod.snd := by
      refine reachN_subset_universe edges _ ?_ _ _ ?_
      · intro e he
        exact List.mem_cons_of_mem _ (List.mem_map.mpr ⟨e, he, rfl⟩)
      · intro a ha
        rw [List.mem_singleton] at ha
        subst ha
        exact List.mem_cons_self _ _
    have hle : (reachN edges (edges.length + 1) [x]).length ≤
        (x :: edges.map Prod.snd).length :=
      (hnd.subperm hsub).length_le
    simp at hle
    simp at h
    omega

theorem reachStep_fix_closed {edges : List (String × String)} {s : List String}
    (hfix : reachStep edges s = s) :
    ∀ a ∈ s, ∀ b, (a, b) ∈ edges → b ∈ s := by
  intro a ha b hab
  by_contra hb
  have hlen := congrArg List.length hfix
  unfold reachStep at hlen
  rw [List.length_append] at hlen
  have hnil : ((edges.filter (fun e => decide (e.1 ∈ s ∧ e.2 ∉ s))).map Prod.snd).dedup = [] := by
    apply List.eq_nil_of_length_eq_zero
    omega
  have hmem : b ∈ ((edges.filter (fun e => decide (e.1 ∈ s ∧ e.2 ∉ s))).map Prod.snd).dedup := by
    rw [List.mem_dedup]
    exact List.mem_map.mpr ⟨(a, b), List.mem_filter.mpr ⟨hab, by simp [ha, hb]⟩, rfl⟩
  rw [hnil] at hmem
  simp at hmem

theorem reach_fix_complete {edges : List (String × String)} {s : List String}
    (hfix : reachStep edges s = s) {x y : String} (hx : x ∈ s)
    (hxy : Relation.ReflTransGen (fun a b => (a, b) ∈ edges) x y) : y ∈ s := by
  induction hxy with
  | refl => exact hx
  | tail _ hstep ih => exact reachStep_fix_closed hfix _ ih _ hstep

theorem reachN_sound (edges : List (String × String)) :
    ∀ n s x, (∀ z ∈ s, Relation.ReflTransGen (fun a b => (a, b) ∈ edges) x z) →
      ∀ y ∈ reachN edges n s, Relation.ReflTransGen (fun a b => (a, b) ∈ edges) x y := by
  intro n
  induction n with
  | zero => intro s x hs y hy; exact hs y hy
  | succ n ih =>
      intro s x hs y hy
      rcases List.mem_append.mp hy with hy | hy
      · exact ih s x hs y hy
      · rw [List.mem_dedup] at hy
        obtain ⟨e, he, rfl⟩ := List.mem_map.mp hy
        have hf := List.of_mem_filter he
        rw [decide_eq_true_eq] at hf
        exact Relation.ReflTransGen.tail (ih s x hs e.1 hf.1) (List.mem_of_mem_filter he)

/-- Membership in the computed reachable set is exactly reflexive-transitive
reachability along the edges. -/
theorem mem_reachableFrom_iff (edges : List (String × String)) (x y : String) :
    y ∈ reachableFrom edges x ↔
      Relation.ReflTransGen (fun a b => (a, b) ∈ edges) x y := by
  constructor
  · intro hy
    refine reachN_sound edges _ [x] x ?_ y hy
    intro z hz
    rw [List.mem_singleton] at hz
    subst hz
    exact Relation.ReflTransGen.refl
  · intro hxy
    have hx : x ∈ reachableFrom edges x :=
      subset_reachN edges _ [x] (List.mem_singleton_self x)
    exact reach_fix_complete (reachableFrom_fix edges x) hx hxy

/-- Edges of the reversed graph. -/
theorem mem_map_swap {l : List (String × String)} {a b : String} :
    (a, b) ∈ l.map Prod.swap ↔ (b, a) ∈ l := by
  rw [List.mem_map]
  constructor
  · rintro ⟨⟨e1, e2⟩, he, hswap⟩
    rw [Prod.mk.injEq] at hswap
    obtain ⟨h1, h2⟩ := hswap
    subst h1
    subst h2
    exact he
  · intro h
    exact ⟨(b, a), h, rfl⟩

theorem reflTransGen_swap_edges (edges : List (String × String)) (x y : String) :
    Relation.ReflTransGen (fun a b => (a, b) ∈ edges.map Prod.swap) x y ↔
      Relation.ReflTransGen (fun a b => (a, b) ∈ edges) y x := by
  have hrel : (fun a b => (a, b) ∈ edges.map Prod.swap) =
      Function.swap (fun a b => (a, b) ∈ edges) := by
    funext a b
    exact propext mem_map_swap
  rw [hrel]
  exact Relation.reflTransGen_swap

/-- When `has_cycles` is false, Kahn's run emits a permutation of the nodes. -/
theorem kahnOrder_perm (g : DependencyGraph) (hnodes : g.nodes.Nodup)
    (hc : g.has_cycles = false) : (kahnOrder g).Perm g.nodes := by
  have hsub : ∀ x ∈ kahnOrder g, x ∈ g.nodes :=
    fun x hx => kahnAux_subset g.edges g.nodes.length g.nodes x hx
  have hnd : (kahnOrder g).Nodup :=
    kahnAux_nodup g.edges g.nodes.length g.nodes hnodes
  have hsp : (kahnOrder g).Subperm g.nodes := hnd.subperm hsub
  have hlen : (kahnOrder g).length = g.nodes.length := by
    unfold has_cycles at hc
    simpa using hc
  exact hsp.perm_of_length_le (Nat.le_of_eq hlen.symm)

end DependencyGraph

/-- C4: for every dependency graph (empty, self-looped or cyclic included),
`has_cycles()` is true exactly when `topological_sort()` returns `None`. -/
theorem has_cycles_iff_topological_sort_none (g : DependencyGraph) :
    g.has_cycles = true ↔ g.topological_sort = none := by
  unfold DependencyGraph.topological_sort
  by_cases h : g.has_cycles <;> simp [h]

/-- C5: for every well-formed acyclic dependency graph, `topological_sort()`
returns an ordering of the graph's nodes in which, for every edge
dependent → dependency, the dependency appears at a strictly smaller index
than the dependent (dependencies load first). -/
theorem topological_sort_orders_dependencies_first (g : DependencyGraph)
    (hwf : g.WF) (order : List String) (h : g.topological_sort = some order) :
    order.Perm g.nodes ∧
      ∀ e ∈ g.edges, order.indexOf e.2 < order.indexOf e.1 := by
  obtain ⟨hnodes, -, hends⟩ := hwf
  unfold DependencyGraph.topological_sort at h
  split at h
  · exact Option.noConfusion h
  · rename_i hc
    have hcf : g.has_cycles = false := by
      revert hc
      cases g.has_cycles <;> simp
    have horder : order = (DependencyGraph.kahnOrder g).reverse :=
      (Option.some.inj h).symm
    subst horder
    have hperm := DependencyGraph.kahnOrder_perm g hnodes hcf
    refine ⟨(List.reverse_perm _).trans hperm, ?_⟩
    intro e he
    obtain ⟨hu, hv⟩ := hends e he
    have hnd : (DependencyGraph.kahnOrder g).Nodup :=
      DependencyGraph.kahnAux_nodup g.edges g.nodes.length g.nodes hnodes
    have hvk : e.2 ∈ DependencyGraph.kahnOrder g := hperm.mem_iff.mpr hv
    obtain ⟨humem, hlt⟩ :=
      DependencyGraph.kahnAux_edge_order g.edges g.nodes.length g.nodes hnodes
        e.1 e.2 he hu hvk
    exact DependencyGraph.indexOf_reverse_flip hnd humem hvk hlt

/-- C8: for every well-formed dependency graph and all names X and Y:
`Y ∈ find_dependents(X)` iff `X ∈ find_dependencies(Y)`; `find_dependents(X)`
is exactly the set of nodes from which a directed path to X exists, excluding
X itself; and a node not in the graph yields the empty set. -/
theorem find_dependents_characterization (g : DependencyGraph) (hwf : g.WF)
    (X Y : String) :
    (Y ∈ g.find_dependents X ↔ X ∈ g.find_dependencies Y) ∧
      (Y ∈ g.find_dependents X ↔
        (Relation.ReflTransGen g.edgeRel Y X ∧ Y ≠ X)) ∧
      (X ∉ g.nodes → g.find_dependents X = []) := by
  obtain ⟨-, -, hends⟩ := hwf
  have hpart2 : Y ∈ g.find_dependents X ↔
      (Relation.ReflTransGen g.edgeRel Y X ∧ Y ≠ X) := by
    unfold DependencyGraph.find_dependents
    by_cases hX : X ∈ g.nodes
    · rw [if_pos hX, List.mem_filter, decide_eq_true_eq,
        DependencyGraph.mem_reachableFrom_iff,
        DependencyGraph.reflTransGen_swap_edges]
      exact Iff.rfl
    · rw [if_neg hX]
      refine iff_of_false (List.not_mem_nil Y) ?_
      rintro ⟨hrtg, hne⟩
      rcases Relation.ReflTransGen.cases_tail hrtg with h | ⟨c, _, hstep⟩
      · exact hne h.symm
      · exact hX (hends _ hstep).2
  have hpart1 : Y ∈ g.find_dependents X ↔ X ∈ g.find_dependencies Y := by
    rw [hpart2]
    unfold DependencyGraph.find_dependencies
    by_cases hY : Y ∈ g.nodes
    · rw [if_pos hY, List.mem_filter, decide_eq_true_eq,
        DependencyGraph.mem_reachableFrom_iff]
      constructor
      · rintro ⟨hrtg, hne⟩
        exact ⟨hrtg, Ne.symm hne⟩
      · rintro ⟨hrtg, hne⟩
        exact ⟨hrtg, Ne.symm hne⟩
    · rw [if_neg hY]
      refine iff_of_false ?_ (List.not_mem_nil X)
      rintro ⟨hrtg, hne⟩
      rcases Relation.ReflTransGen.cases_head hrtg with h | ⟨c, hstep, -⟩
      · exact hne h
      · exact hY (hends _ hstep).1
  refine ⟨hpart1, hpart2, fun hX => ?_⟩
  unfold DependencyGraph.find_dependents
  rw [if_neg hX]

/-- Witness for C5 at the concrete chain A → B → C: the sort is
`["C", "B", "A"]` and each dependency precedes its dependent. -/
theorem topological_sort_orders_dependencies_first_witness :
    sampleChain.WF ∧ sampleChain.topological_sort = some ["C", "B", "A"] ∧
      List.Perm ["C", "B", "A"] sampleChain.nodes ∧
      ∀ e ∈ sampleChain.edges,
        List.indexOf e.2 ["C", "B", "A"] < List.indexOf e.1 ["C", "B", "A"] := by
  have hwf : sampleChain.WF := by decide
  have hts : sampleChain.topological_sort = some ["C", "B", "A"] := by decide
  obtain ⟨h1, h2⟩ :=
    topological_sort_orders_dependencies_first sampleChain hwf ["C", "B", "A"] hts
  exact ⟨hwf, hts, h1, h2⟩

/-- Witness for C8 at the chain A → B → C: A is a transitive dependent of C,
and the two query directions agree. -/
theorem find_dependents_characterization_witness :
    sampleChain.WF ∧
      ("A" ∈ sampleChain.find_dependents "C" ↔
        "C" ∈ sampleChain.find_dependencies "A") ∧
      Relation.ReflTransGen sampleChain.edgeRel "A" "C" := by
  have hwf : sampleChain.WF := by decide
  have h := find_dependents_characterization sampleChain hwf "C" "A"
  exact ⟨hwf, h.1, (h.2.1.mp (by decide)).1⟩

namespace TuningConflictDetector

/-! ## Tuning detector characterization (claims C3 and C6) -/
theorem tuning_index_vals (mods : List Mod) (i : Nat) :
    indexVals (_build_tuning_index mods) i =
      ((tuningEntries mods).filter (fun e => decide (e.1 = i))).map Prod.snd :=
  buildIndex_vals _ i

theorem tuning_index_vals_length (mods : List Mod) (i : Nat) :
    (indexVals (_build_tuning_index mods) i).length = tuningRecordCount mods i := by
  rw [tuning_index_vals, List.length_map]
  unfold tuningRecordCount tuningEntries
  induction mods with
  | nil => rfl
  | cons m rest ih =>
      rw [List.flatMap_cons, List.flatMap_cons, List.filter_append,
        List.filter_append, List.length_append, List.length_append, ih]
      congr 1
      rw [List.filter_map, List.length_map]
      rfl

end TuningConflictDetector

/-- C3 (amended): the tuning detector emits exactly one TUNING_OVERLAP
conflict for an instance id precisely when at least two (artifact, record)
entries across all artifacts carry that instance id — duplicate records
inside one artifact count separately, so a single artifact with two records
of the same id already yields the conflict. -/
theorem tuning_conflict_iff_two_records (mods : List Mod) (i : Nat) :
    (TuningConflictDetector.detect mods).countP
        (fun c => decide (c.details.tuning_id = some i)) =
      if 2 ≤ TuningConflictDetector.tuningRecordCount mods i then 1 else 0 := by
  unfold TuningConflictDetector.detect
  rw [List.countP_map, List.countP_filter]
  have hfun : (fun p : Nat × List (Mod × TuningData) =>
      ((fun c : ModConflict => decide (c.details.tuning_id = some i)) ∘
        (fun p : Nat × List (Mod × TuningData) =>
          TuningConflictDetector._create_tuning_conflict p.1 p.2)) p &&
        decide (p.2.length > 1)) =
      fun p : Nat × List (Mod × TuningData) =>
        decide (p.1 = i) && decide (1 < p.2.length) := by
    funext p
    simp [TuningConflictDetector._create_tuning_conflict, create_conflict,
      Function.comp, Nat.lt_iff_add_one_le]
  have hnd : (indexKeys (TuningConflictDetector._build_tuning_index mods)).Nodup :=
    buildIndex_keys_nodup _
  have hne : ∀ p ∈ TuningConflictDetector._build_tuning_index mods, p.2 ≠ [] :=
    buildIndex_vals_ne_nil _
  rw [hfun, countP_index_key_and (TuningConflictDetector._build_tuning_index mods)
    hnd i (fun vs => decide (1 < vs.length))]
  have hcond : (i ∈ indexKeys (TuningConflictDetector._build_tuning_index mods) ∧
      decide (1 < (indexVals (TuningConflictDetector._build_tuning_index mods) i).length) = true) ↔
      2 ≤ TuningConflictDetector.tuningRecordCount mods i := by
    rw [mem_indexKeys_iff_vals_ne_nil _ hne i, decide_eq_true_eq]
    rw [← TuningConflictDetector.tuning_index_vals_length mods i]
    constructor
    · rintro ⟨-, h2⟩
      omega
    · intro h2
      refine ⟨List.ne_nil_of_length_pos (by omega), by omega⟩
  rw [if_congr hcond rfl rfl]

/-- C3 counterexample: a single artifact containing two tuning records with
the same instance id (and no other artifact sharing it) yields one
TUNING_OVERLAP conflict, where the claim as stated promises none. -/
theorem tuning_conflict_single_artifact_counterexample :
    (TuningConflictDetector.detect [soloMod]).length = 1 ∧
      (TuningConflictDetector.detect [soloMod]).map (fun c => c.affected_mods) =
        [["Solo.package", "Solo.package"]] := by
  exact ⟨by decide, by decide⟩

/-- C6 counterexample: on mods `[B.package, A.package]` sharing tuning id 7
(the second carrying it twice), the only produced conflict lists the affected
artifacts as `["B.package", "A.package", "A.package"]` — neither sorted nor
duplicate-free. -/
theorem conflict_affected_not_sorted_counterexample :
    (ModAnalyzer.detect_conflicts [cexB, cexA]).map (fun c => c.affected_mods) =
        [["B.package", "A.package", "A.package"]] ∧
      ¬ List.Pairwise (fun a b : String => strLe a b = true)
          ["B.package", "A.package", "A.package"] ∧
      ¬ List.Nodup ["B.package", "A.package", "A.package"] := by
  exact ⟨by decide, by decide, by decide⟩

/-- Every conflict of the default pipeline has at least two affected entries
and carries one of the two detector conflict types (shared helper). -/
theorem detect_conflicts_shape (mods : List Mod) :
    ∀ c ∈ ModAnalyzer.detect_conflicts mods,
      2 ≤ c.affected_mods.length ∧
        (c.type = ConflictType.TUNING_OVERLAP ∨
          c.type = ConflictType.RESOURCE_DUPLICATE) := by
  intro c hc
  unfold ModAnalyzer.detect_conflicts at hc
  rcases List.mem_append.mp hc with hc | hc
  · unfold TuningConflictDetector.detect at hc
    obtain ⟨p, hp, rfl⟩ := List.mem_map.mp hc
    have hlen := List.of_mem_filter hp
    rw [decide_eq_true_eq] at hlen
    refine ⟨?_, Or.inl rfl⟩
    show 2 ≤ (p.2.map (fun q => q.1.name)).length
    rw [List.length_map]
    omega
  · unfold ResourceConflictDetector.detect at hc
    rcases List.mem_append.mp hc with hc | hc
    · obtain ⟨p, hp, rfl⟩ := List.mem_map.mp hc
      have hlen := List.of_mem_filter hp
      rw [decide_eq_true_eq] at hlen
      refine ⟨?_, Or.inr rfl⟩
      show 2 ≤ (p.2.map Mod.name).length
      rw [List.length_map]
      omega
    · unfold ResourceConflictDetector._detect_hash_collisions at hc
      obtain ⟨p, hp, rfl⟩ := List.mem_map.mp hc
      have hlen := List.of_mem_filter hp
      rw [decide_eq_true_eq] at hlen
      refine ⟨?_, Or.inr rfl⟩
      show 2 ≤ (p.2.map Mod.name).length
      rw [List.length_map]
      omega

/-- C6 (amended): every conflict the default detectors produce carries at
least two affected-artifact entries, and is a TUNING_OVERLAP or
RESOURCE_DUPLICATE conflict; the affected list keeps input mod order and is
neither sorted nor deduplicated in general. -/
theorem detector_conflicts_affected_length (mods : List Mod) :
    ∀ c ∈ ModAnalyzer.detect_conflicts mods,
      2 ≤ c.affected_mods.length ∧
        (c.type = ConflictType.TUNING_OVERLAP ∨
          c.type = ConflictType.RESOURCE_DUPLICATE) :=
  detect_conflicts_shape mods

/-- Witness for the amended C6 at the concrete two-mod input: the produced
conflict names three (≥ 2) affected artifacts. -/
theorem detector_conflicts_affected_length_witness :
    2 ≤ (TuningConflictDetector._create_tuning_conflict 7
        [(cexB, tShared), (cexA, tShared), (cexA, tShared)]).affected_mods.length := by
  have hmem : TuningConflictDetector._create_tuning_conflict 7
      [(cexB, tShared), (cexA, tShared), (cexA, tShared)] ∈
        ModAnalyzer.detect_conflicts [cexB, cexA] := by decide
  exact (detector_conflicts_affected_length [cexB, cexA] _ hmem).1

namespace ResourceConflictDetector

/-! ## Resource detector characterization (claims C2, C7, C10) -/
/-- The mods stored under a resource key are exactly the mods whose key set
contains it, in input order (each mod at most once per key, since
`resource_keys` is a set). -/
theorem resource_index_vals (mods : List Mod) (k : Nat × Nat × Nat) :
    indexVals (_build_resource_index mods) k =
      mods.filter (fun m => decide (k ∈ m.resource_keys)) := by
  unfold _build_resource_index
  rw [buildIndex_vals]
  induction mods with
  | nil => rfl
  | cons m rest ih =>
      rw [List.flatMap_cons, List.filter_append, List.map_append, ih,
        List.filter_cons]
      have hnodup : (m.resource_keys).Nodup := List.nodup_dedup _
      have hmap : ((m.resource_keys.map (fun k' => (k', m))).filter
          (fun e => decide (e.1 = k))).map Prod.snd =
          if k ∈ m.resource_keys then [m] else [] := by
        rw [List.filter_map]
        have hcomp : ((fun e : (Nat × Nat × Nat) × Mod => decide (e.1 = k)) ∘
            (fun k' => (k', m))) = fun k' : Nat × Nat × Nat => decide (k' = k) := rfl
        rw [hcomp, filter_eq_of_nodup _ hnodup k]
        by_cases hk : k ∈ m.resource_keys <;> simp [hk]
      rw [hmap]
      by_cases hk : k ∈ m.resource_keys <;> simp [hk]

/-- Every key of the resource index is a resource key of some input mod. -/
theorem resource_index_keys_from_mods (mods : List Mod) :
    ∀ p ∈ _build_resource_index mods, ∃ m ∈ mods, p.1 ∈ m.resource_keys := by
  intro p hp
  have hk : p.1 ∈ indexKeys (_build_resource_index mods) :=
    List.mem_map.mpr ⟨p, hp, rfl⟩
  have hne : ∀ q ∈ _build_resource_index mods, q.2 ≠ [] := buildIndex_vals_ne_nil _
  rw [mem_indexKeys_iff_vals_ne_nil _ hne p.1, resource_index_vals] at hk
  obtain ⟨m, hm⟩ := List.exists_mem_of_ne_nil _ hk
  have hmem := List.mem_filter.mp hm
  rw [decide_eq_true_eq] at hmem
  exact ⟨m, hmem.1, hmem.2⟩

/-- The parser bounds, lifted from resources to resource keys. -/
theorem resource_keys_bounded {mods : List Mod}
    (hb : ∀ m ∈ mods, ∀ r ∈ m.resources,
      r.type < 2 ^ 32 ∧ r.group < 2 ^ 32 ∧ r.inst < 2 ^ 64) :
    ∀ m ∈ mods, ∀ k ∈ m.resource_keys, KeyBounded k := by
  intro m hm k hk
  unfold Mod.resource_keys at hk
  rw [List.mem_dedup] at hk
  obtain ⟨r, hr, rfl⟩ := List.mem_map.mp hk
  exact ⟨(hb m hm r hr).1, (hb m hm r hr).2.1, (hb m hm r hr).2.2⟩

/-- Every hash-collision conflict's details carry no `"resource_key"` key. -/
theorem hash_conflicts_resource_key_none (mods : List Mod) :
    ∀ c ∈ _detect_hash_collisions mods, c.details.resource_key = none := by
  intro c hc
  unfold _detect_hash_collisions at hc
  obtain ⟨p, -, rfl⟩ := List.mem_map.mp hc
  rfl

end ResourceConflictDetector

/-- C7 (amended): the resource detector's conflicts are emitted with the
key-based conflicts first, one per duplicated key in first-seen key order,
followed by the hash-collision conflicts in first-seen hash order — a
deterministic order, but not sorted by the derived id strings. -/
theorem resource_detect_emission_order (mods : List Mod) :
    (ResourceConflictDetector.detect mods).map (fun c => c.id) =
      ((ResourceConflictDetector._build_resource_index mods).filter
          (fun p => decide (p.2.length > 1))).map
        (fun p => generate_conflict_id ConflictType.RESOURCE_DUPLICATE
          (ResourceConflictDetector.keyIdentifier p.1)) ++
      ((ResourceConflictDetector._build_hash_index mods).filter
          (fun p => decide (p.2.length > 1))).map
        (fun p => generate_conflict_id ConflictType.RESOURCE_DUPLICATE
          ("hash_" ++ strTake p.1 16)) := by
  unfold ResourceConflictDetector.detect
    ResourceConflictDetector._detect_hash_collisions
  rw [List.map_append, List.map_map, List.map_map]
  rfl

/-- `countP` respects pointwise equality on the list's members. -/
theorem countP_congr_mem {α : Type} {p q : α → Bool} :
    ∀ {l : List α}, (∀ a ∈ l, p a = q a) → l.countP p = l.countP q := by
  intro l
  induction l with
  | nil => intro _; rfl
  | cons a t ih =>
      intro h
      rw [List.countP_cons, List.countP_cons, h a (List.mem_cons_self _ _),
        ih (fun b hb => h b (List.mem_cons_of_mem _ hb))]

/-- With pairwise-disjoint key sets, at most one mod carries any given key. -/
theorem filter_key_le_one_of_pairwise_disjoint (mods : List Mod)
    (k : Nat × Nat × Nat)
    (hpw : mods.Pairwise (fun m₁ m₂ => ∀ k' ∈ m₁.resource_keys,
      k' ∉ m₂.resource_keys)) :
    (mods.filter (fun m => decide (k ∈ m.resource_keys))).length ≤ 1 := by
  induction mods with
  | nil => simp
  | cons m rest ih =>
      rw [List.pairwise_cons] at hpw
      rw [List.filter_cons]
      by_cases hk : k ∈ m.resource_keys
      · have hrest : rest.filter (fun m' => decide (k ∈ m'.resource_keys)) = [] := by
          rw [List.filter_eq_nil_iff]
          intro m' hm'
          simp only [decide_eq_true_eq]
          exact hpw.1 m' hm' k hk
        simp [hk, hrest]
      · simp [hk, ih hpw.2]

/-- C2: whenever two distinct artifacts both contain a resource with the same
(type, group, instance) key, the resource detector emits exactly one
key-based RESOURCE_DUPLICATE conflict for that key, and its affected list
names both artifacts; when the artifacts' key sets are pairwise disjoint, it
emits zero key-based conflicts. -/
theorem resource_duplicate_key_conflicts (mods : List Mod) :
    (∀ (hb : ∀ m ∈ mods, ∀ r ∈ m.resources,
        r.type < 2 ^ 32 ∧ r.group < 2 ^ 32 ∧ r.inst < 2 ^ 64)
      (A B : Mod) (hA : A ∈ mods) (hB : B ∈ mods) (hAB : A ≠ B)
      (k : Nat × Nat × Nat) (hkA : k ∈ A.resource_keys)
      (hkB : k ∈ B.resource_keys),
      (ResourceConflictDetector.detect mods).countP
          (fun c => decide (c.details.resource_key =
            some (ResourceConflictDetector.keyString k))) = 1 ∧
        ∀ c ∈ ResourceConflictDetector.detect mods,
          c.details.resource_key = some (ResourceConflictDetector.keyString k) →
            A.name ∈ c.affected_mods ∧ B.name ∈ c.affected_mods) ∧
    (mods.Pairwise (fun m₁ m₂ => ∀ k' ∈ m₁.resource_keys,
        k' ∉ m₂.resource_keys) →
      (ResourceConflictDetector.detect mods).countP
        (fun c => c.details.resource_key.isSome) = 0) := by
  have hnd : (indexKeys (ResourceConflictDetector._build_resource_index mods)).Nodup :=
    buildIndex_keys_nodup _
  have hne : ∀ p ∈ ResourceConflictDetector._build_resource_index mods, p.2 ≠ [] :=
    buildIndex_vals_ne_nil _
  constructor
  · intro hb A B hA hB hAB k hkA hkB
    have hbk : ResourceConflictDetector.KeyBounded k :=
      ResourceConflictDetector.resource_keys_bounded hb A hA k hkA
    have hAvals : A ∈ mods.filter (fun m => decide (k ∈ m.resource_keys)) :=
      List.mem_filter.mpr ⟨hA, by simpa using hkA⟩
    have hBvals : B ∈ mods.filter (fun m => decide (k ∈ m.resource_keys)) :=
      List.mem_filter.mpr ⟨hB, by simpa using hkB⟩
    constructor
    · unfold ResourceConflictDetector.detect
      rw [List.countP_append]
      have hhash : (ResourceConflictDetector._detect_hash_collisions mods).countP
          (fun c => decide (c.details.resource_key =
            some (ResourceConflictDetector.keyString k))) = 0 := by
        rw [List.countP_eq_zero]
        intro c hc
        rw [ResourceConflictDetector.hash_conflicts_resource_key_none mods c hc]
        simp
      rw [hhash, List.countP_map, List.countP_filter]
      have hcg : ∀ p ∈ ResourceConflictDetector._build_resource_index mods,
          (((fun c : ModConflict => decide (c.details.resource_key =
              some (ResourceConflictDetector.keyString k))) ∘
            (fun p : (Nat × Nat × Nat) × List Mod =>
              ResourceConflictDetector._create_resource_conflict p.1 p.2)) p &&
            decide (p.2.length > 1)) =
          (decide (p.1 = k) && decide (1 < p.2.length)) := by
        intro p hp
        obtain ⟨m, hm, hkm⟩ :=
          ResourceConflictDetector.resource_index_keys_from_mods mods p hp
        have hbp : ResourceConflictDetector.KeyBounded p.1 :=
          ResourceConflictDetector.resource_keys_bounded hb m hm p.1 hkm
        have hiff : ((ResourceConflictDetector._create_resource_conflict
            p.1 p.2).details.resource_key =
              some (ResourceConflictDetector.keyString k)) ↔ (p.1 = k) := by
          show (some (ResourceConflictDetector.keyString p.1) =
            some (ResourceConflictDetector.keyString k)) ↔ _
          constructor
          · intro h
            exact ResourceConflictDetector.keyString_inj hbp hbk (Option.some.inj h)
          · intro h
            rw [h]
        rw [Function.comp_apply, decide_eq_decide.mpr hiff]
      rw [countP_congr_mem hcg,
        countP_index_key_and (ResourceConflictDetector._build_resource_index mods)
          hnd k (fun vs => decide (1 < vs.length))]
      have hvals : indexVals (ResourceConflictDetector._build_resource_index mods) k =
          mods.filter (fun m => decide (k ∈ m.resource_keys)) :=
        ResourceConflictDetector.resource_index_vals mods k
      have hcondition : k ∈ indexKeys (ResourceConflictDetector._build_resource_index mods) ∧
          decide (1 < (indexVals (ResourceConflictDetector._build_resource_index mods) k).length) = true := by
        constructor
        · rw [mem_indexKeys_iff_vals_ne_nil _ hne k, hvals]
          exact List.ne_nil_of_mem hAvals
        · rw [hvals, decide_eq_true_eq]
          have := two_le_length_of_mem_ne hAvals hBvals hAB
          omega
      rw [if_pos hcondition]
    · intro c hc hck
      unfold ResourceConflictDetector.detect at hc
      rcases List.mem_append.mp hc with hc | hc
      · obtain ⟨p, hp, rfl⟩ := List.mem_map.mp hc
        have hp' := List.mem_filter.mp hp
        obtain ⟨m, hm, hkm⟩ :=
          ResourceConflictDetector.resource_index_keys_from_mods mods p hp'.1
        have hbp : ResourceConflictDetector.KeyBounded p.1 :=
          ResourceConflictDetector.resource_keys_bounded hb m hm p.1 hkm
        have hpk : p.1 = k := by
          have h : some (ResourceConflictDetector.keyString p.1) =
              some (ResourceConflictDetector.keyString k) := hck
          exact ResourceConflictDetector.keyString_inj hbp hbk (Option.some.inj h)
        have hvals : p.2 = mods.filter (fun m => decide (k ∈ m.resource_keys)) := by
          have h1 := mem_index_eq_vals _ hnd hp'.1
          rw [h1]
          rw [hpk, ResourceConflictDetector.resource_index_vals]
        constructor
        · show A.name ∈ p.2.map Mod.name
          rw [hvals]
          exact List.mem_map.mpr ⟨A, hAvals, rfl⟩
        · show B.name ∈ p.2.map Mod.name
          rw [hvals]
          exact List.mem_map.mpr ⟨B, hBvals, rfl⟩
      · rw [ResourceConflictDetector.hash_conflicts_resource_key_none mods c hc] at hck
        exact Option.noConfusion hck
  · intro hpw
    unfold ResourceConflictDetector.detect
    rw [List.countP_append]
    have hhash : (ResourceConflictDetector._detect_hash_collisions mods).countP
        (fun c => c.details.resource_key.isSome) = 0 := by
      rw [List.countP_eq_zero]
      intro c hc
      rw [ResourceConflictDetector.hash_conflicts_resource_key_none mods c hc]
      simp
    rw [hhash, List.countP_map, List.countP_filter, Nat.add_zero,
      List.countP_eq_zero]
    intro p hp
    simp only [Bool.and_eq_true, decide_eq_true_eq, not_and, Function.comp_apply]
    intro _
    have h1 := mem_index_eq_vals _ hnd hp
    rw [h1, ResourceConflictDetector.resource_index_vals]
    have := filter_key_le_one_of_pairwise_disjoint mods p.1 hpw
    omega

/-- Witness for C2 at two concrete mods sharing key (7, 8, 9): exactly one
key-based conflict, naming both mods. -/
theorem resource_duplicate_key_conflicts_witness :
    (ResourceConflictDetector.detect [wModA, wModB]).countP
        (fun c => decide (c.details.resource_key =
          some (ResourceConflictDetector.keyString (7, 8, 9)))) = 1 := by
  refine ((resource_duplicate_key_conflicts [wModA, wModB]).1 ?_ wModA wModB
    (by decide) (by decide) (by decide) (7, 8, 9) (by decide) (by decide)).1
  decide

/-- A duplicate-free list whose members are all equal has at most one
member. -/
theorem length_le_one_of_forall_eq {α : Type} (l : List α) (hnd : l.Nodup)
    (h : ∀ a ∈ l, ∀ b ∈ l, a = b) : l.length ≤ 1 := by
  match l with
  | [] => simp
  | [a] => simp
  | a :: b :: t =>
      exfalso
      rw [List.nodup_cons] at hnd
      have hab : a = b := h a (by simp) b (by simp)
      subst hab
      exact hnd.1 (List.mem_cons_self a t)

/-- C10: resource keys are taken as a set per mod (`resource_keys` is
deduplicated), so with unique mod names every key-based RESOURCE_DUPLICATE
conflict lists a mod's name at most once, and a key contained (even several
times) in only one mod yields no key-based conflict for that key. -/
theorem resource_keys_set_semantics (mods : List Mod) :
    (∀ m : Mod, m.resource_keys.Nodup) ∧
      ((mods.map Mod.name).Nodup →
        (∀ c ∈ ResourceConflictDetector.detect mods,
          c.details.resource_key.isSome → c.affected_mods.Nodup) ∧
        (∀ (hb : ∀ m ∈ mods, ∀ r ∈ m.resources,
            r.type < 2 ^ 32 ∧ r.group < 2 ^ 32 ∧ r.inst < 2 ^ 64)
          (m : Mod) (hm : m ∈ mods) (k : Nat × Nat × Nat)
          (hk : k ∈ m.resource_keys)
          (honly : ∀ m' ∈ mods, k ∈ m'.resource_keys → m' = m),
          ∀ c ∈ ResourceConflictDetector.detect mods,
            c.details.resource_key ≠
              some (ResourceConflictDetector.keyString k))) := by
  have hnd : (indexKeys (ResourceConflictDetector._build_resource_index mods)).Nodup :=
    buildIndex_keys_nodup _
  refine ⟨fun m => List.nodup_dedup _, fun hnames => ⟨?_, ?_⟩⟩
  · intro c hc hsome
    unfold ResourceConflictDetector.detect at hc
    rcases List.mem_append.mp hc with hc | hc
    · obtain ⟨p, hp, rfl⟩ := List.mem_map.mp hc
      have hp' := List.mem_filter.mp hp
      have hvals := mem_index_eq_vals _ hnd hp'.1
      show (p.2.map Mod.name).Nodup
      rw [hvals, ResourceConflictDetector.resource_index_vals]
      exact hnames.sublist ((List.filter_sublist mods).map Mod.name)
    · rw [ResourceConflictDetector.hash_conflicts_resource_key_none mods c hc] at hsome
      simp at hsome
  · intro hb m hm k hk honly c hc hck
    have hbk : ResourceConflictDetector.KeyBounded k :=
      ResourceConflictDetector.resource_keys_bounded hb m hm k hk
    unfold ResourceConflictDetector.detect at hc
    rcases List.mem_append.mp hc with hc | hc
    · obtain ⟨p, hp, rfl⟩ := List.mem_map.mp hc
      have hp' := List.mem_filter.mp hp
      obtain ⟨m', hm', hkm'⟩ :=
        ResourceConflictDetector.resource_index_keys_from_mods mods p hp'.1
      have hbp : ResourceConflictDetector.KeyBounded p.1 :=
        ResourceConflictDetector.resource_keys_bounded hb m' hm' p.1 hkm'
      have hpk : p.1 = k := by
        have h : some (ResourceConflictDetector.keyString p.1) =
            some (ResourceConflictDetector.keyString k) := hck
        exact ResourceConflictDetector.keyString_inj hbp hbk (Option.some.inj h)
      have hlen := hp'.2
      rw [decide_eq_true_eq] at hlen
      have hvals := mem_index_eq_vals _ hnd hp'.1
      rw [hvals, hpk, ResourceConflictDetector.resource_index_vals] at hlen
      have hle : (mods.filter (fun m'' => decide (k ∈ m''.resource_keys))).length ≤ 1 := by
        refine length_le_one_of_forall_eq _
          ((hnames.of_map).sublist (List.filter_sublist mods)) ?_
        intro a ha b hbm
        have ha' := List.mem_filter.mp ha
        have hb' := List.mem_filter.mp hbm
        rw [decide_eq_true_eq] at ha' hb'
        rw [honly a ha'.1 ha'.2, honly b hb'.1 hb'.2]
      omega
    · rw [ResourceConflictDetector.hash_conflicts_resource_key_none mods c hc] at hck
      exact Option.noConfusion hck

/-- Witness for C10: on two distinctly-named mods sharing key (7, 8, 9) the
key conflict's affected list is duplicate-free. -/
theorem resource_keys_set_semantics_witness :
    ([wModA, wModB].map Mod.name).Nodup ∧
      (ResourceConflictDetector._create_resource_conflict (7, 8, 9)
        [wModA, wModB]).affected_mods.Nodup := by
  have hnames : ([wModA, wModB].map Mod.name).Nodup := by decide
  have hmem : ResourceConflictDetector._create_resource_conflict (7, 8, 9)
      [wModA, wModB] ∈ ResourceConflictDetector.detect [wModA, wModB] := by decide
  refine ⟨hnames, ((resource_keys_set_semantics [wModA, wModB]).2 hnames).1 _ hmem ?_⟩
  decide

/-- C7 counterexample: four mods whose first-seen duplicated key has the
larger type id make `detect` return ids in descending order, so the output is
not sorted by id. -/
theorem resource_conflicts_not_sorted_counterexample :
    (ResourceConflictDetector.detect [cM1, cM2, cM3, cM4]).map (fun c => c.id) =
        ["reso_00000002_00000000_0000000000000000",
          "reso_00000001_00000000_0000000000000000"] ∧
      ¬ List.Pairwise (fun a b : String => strLe a b = true)
        ((ResourceConflictDetector.detect [cM1, cM2, cM3, cM4]).map (fun c => c.id)) := by
  exact ⟨by decide, by decide⟩

/-! ## Module collisions (claim C9) -/
/-- The wrapper text around the module name determines the name. -/
theorem moduleCollisionDescription_inj {a b : String}
    (h : moduleCollisionDescription a = moduleCollisionDescription b) : a = b := by
  have hd : ("Multiple script mods provide the module \x27".data ++ a.data) ++
      "\x27, which can lead to injection conflicts.".data =
      ("Multiple script mods provide the module \x27".data ++ b.data) ++
        "\x27, which can lead to injection conflicts.".data :=
    congrArg String.data h
  have h1 := (List.append_inj' hd rfl).1
  have h2 := (List.append_inj h1 rfl).2
  exact congrArg String.mk h2

/-- C9 (amended): the default `ModAnalyzer` pipeline emits no
NAMESPACE_COLLISION conflicts at all; the module-name collision detection
lives in the legacy analyzer, where every emitted conflict carries the type
string "SCRIPT_MODULE_COLLISION" (neither NAMESPACE_COLLISION nor
SCRIPT_INJECTION), and exactly one such conflict is emitted for every
non-empty declared module name with at least two distinct owners. -/
theorem module_collisions_not_namespace (mods : List Mod)
    (metas : List ScriptModMetadata) (name : String) :
    (ModAnalyzer.detect_conflicts mods).countP
        (fun c => decide (c.type = ConflictType.NAMESPACE_COLLISION)) = 0 ∧
      (detectModuleCollisions metas).all
        (fun c => decide (c.type = "SCRIPT_MODULE_COLLISION")) = true ∧
      (detectModuleCollisions metas).countP
          (fun c => decide (c.description = moduleCollisionDescription name)) =
        if name ≠ "" ∧
            2 ≤ (uniqueOwners (indexVals (moduleIndex metas) name)).length
        then 1 else 0 := by
  have hnd : (indexKeys (moduleIndex metas)).Nodup := buildIndex_keys_nodup _
  have hne : ∀ p ∈ moduleIndex metas, p.2 ≠ [] := buildIndex_vals_ne_nil _
  refine ⟨?_, ?_, ?_⟩
  · rw [List.countP_eq_zero]
    intro c hc
    rcases (detect_conflicts_shape mods c hc).2 with h | h <;> simp [h]
  · rw [List.all_eq_true]
    intro c hc
    unfold detectModuleCollisions at hc
    obtain ⟨p, -, rfl⟩ := List.mem_map.mp hc
    simp
  · unfold detectModuleCollisions
    rw [List.countP_map, List.countP_filter]
    have hcg : ∀ p ∈ moduleIndex metas,
        (((fun c : LegacyModConflict =>
            decide (c.description = moduleCollisionDescription name)) ∘
          (fun p : String × List String =>
            ({ severity := "CRITICAL"
               type := "SCRIPT_MODULE_COLLISION"
               affected_mods := uniqueOwners p.2
               description := moduleCollisionDescription p.1
               resolution := some "Load only one version of the module or verify injector compatibility." } : LegacyModConflict))) p &&
          !(decide ((uniqueOwners p.2).length ≤ 1 ∨ p.1 = ""))) =
        (decide (p.1 = name) &&
          !(decide ((uniqueOwners p.2).length ≤ 1 ∨ name = ""))) := by
      intro p _
      by_cases hpn : p.1 = name
      · rw [Function.comp_apply]
        rw [hpn]
        simp
      · have hd : ¬ (moduleCollisionDescription p.1 = moduleCollisionDescription name) :=
          fun h => hpn (moduleCollisionDescription_inj h)
        rw [Function.comp_apply]
        simp [hpn, hd]
    rw [countP_congr_mem hcg,
      countP_index_key_and (moduleIndex metas) hnd name
        (fun vs => !(decide ((uniqueOwners vs).length ≤ 1 ∨ name = "")))]
    have hcond : (name ∈ indexKeys (moduleIndex metas) ∧
        (!(decide ((uniqueOwners (indexVals (moduleIndex metas) name)).length ≤ 1 ∨
          name = ""))) = true) ↔
        (name ≠ "" ∧
          2 ≤ (uniqueOwners (indexVals (moduleIndex metas) name)).length) := by
      rw [mem_indexKeys_iff_vals_ne_nil _ hne name]
      rw [Bool.not_eq_true', decide_eq_false_iff_not]
      constructor
      · rintro ⟨-, h2⟩
        rw [not_or] at h2
        exact ⟨h2.2, by omega⟩
      · rintro ⟨hn, h2⟩
        refine ⟨?_, by rw [not_or]; exact ⟨by omega, hn⟩⟩
        intro hnil
        rw [hnil] at h2
        simp [uniqueOwners, sortStrings] at h2
    rw [if_congr hcond rfl rfl]

/-- C9 counterexample: two artifacts declaring the same module name produce
one collision conflict, but its type is the string "SCRIPT_MODULE_COLLISION",
not NAMESPACE_COLLISION as the claim states. -/
theorem module_collision_type_counterexample :
    (detectModuleCollisions [metaX, metaY]).length = 1 ∧
      (detectModuleCollisions [metaX, metaY]).countP
        (fun c => decide (c.type = "NAMESPACE_COLLISION")) = 0 := by
  exact ⟨by decide, by decide⟩

end Simanalysis
